import Mathlib

/-!
Shallow embedding of `oraeventstore.go`.

The Go store talks to an Oracle database through `database/sql`.  The embedding
passes the database explicitly as a value of type `DB`: the two relations, a
schedule of backend failures, and the server clock.  Every Go function that
touches the database takes the `DB` and returns the new `DB` next to its Go
results.  Go's `error` is `Option Error` (`none` is `nil`).

The relations keep the column values as they are inserted.  The result set of a
query is fixed when the query runs.  A transaction is a single session: the
statements it executes write the relations in place and a rollback puts back
what `Begin` saw.  Closing a statement or a cursor changes nothing in the
relations and is left out.
-/

namespace oraeventstore

/-! ## Types of package `goes` (the fields the store reads and writes) -/

/-- Go `interface{}` as held by `goes.Event.Payload`: a `[]byte`, or a value of
some other dynamic type (named by its type). -/
inductive Interface where
  | bytes (b : List Nat)
  | other (typeName : String)
deriving DecidableEq, Repr

/-- The struct `goes.Event`. -/
structure Event where
  Source : String
  Version : Int
  TypeCode : String
  Payload : Interface
deriving DecidableEq, Repr

/-- The struct `goes.Aggregate`, the append request. -/
structure Aggregate where
  AggregateID : String
  Version : Int
  Events : List Event
deriving DecidableEq, Repr

/-- Go `error` values seen by callers of the store: the four package-level
sentinels (source lines 14-19), an error handed up verbatim from the backend,
and the run-time panic of a nil pointer dereference. -/
inductive Error where
  | ErrConcurrency
  | ErrPayloadType
  | ErrEventInsert
  | ErrPubInsert
  | backend (msg : String)
  | nilDereference
deriving DecidableEq, Repr

/-! ## The relational backend -/

/-- A row of the ledger relation `t_aeev_events`. -/
structure EventRow where
  aggregate_id : String
  version : Int
  typecode : String
  payload : List Nat
  event_time : Nat
deriving DecidableEq, Repr

/-- A row of the outbox relation `t_aepb_publish`. -/
structure PublishRow where
  aggregate_id : String
  version : Int
deriving DecidableEq, Repr

/-- The key `(aggregate_id, version)` of a ledger row. -/
def EventRow.key (r : EventRow) : String × Int := (r.aggregate_id, r.version)

/-- The key `(aggregate_id, version)` of an outbox row. -/
def PublishRow.key (r : PublishRow) : String × Int := (r.aggregate_id, r.version)

/-- The database behind `*sql.DB`.  `t_aeev_events` and `t_aepb_publish` hold
the rows in insertion order.  `faults` is the schedule of backend failures: each
call to the backend takes the head of the list, `some msg` makes that call fail
with message `msg`, `none` (or an exhausted list) lets it run.  `clock` is the
server clock that stamps `event_time`. -/
structure DB where
  t_aeev_events : List EventRow
  t_aepb_publish : List PublishRow
  faults : List (Option String)
  clock : Nat
deriving DecidableEq, Repr

/-- One round trip to the backend: consumes the next scheduled fault and
advances the clock. -/
def DB.call (db : DB) : Option String × DB :=
  match db.faults with
  | [] => (none, { db with clock := db.clock + 1 })
  | f :: rest => (f, { db with faults := rest, clock := db.clock + 1 })

/-- Modelled from the spec: the DDL of the two relations is not part of the
source; section 6 of the spec requires a uniqueness constraint on
(`aggregate_id`, `version`) in the ledger.  The message is the one Oracle
raises (ORA-00001). -/
def ledgerUniqueViolation : String :=
  "ORA-00001: unique constraint (ESUSR.T_AEEV_EVENTS_PK) violated"

/-- Modelled from the spec: the DDL of the two relations is not part of the
source; section 6 of the spec requires a uniqueness constraint on
(`aggregate_id`, `version`) in the outbox.  The message is the one Oracle
raises (ORA-00001). -/
def publishUniqueViolation : String :=
  "ORA-00001: unique constraint (ESUSR.T_AEPB_PUBLISH_PK) violated"

/-- The statement `insert into t_aeev_events (aggregate_id, version, typecode,
payload) values (:1, :2, :3, :4)` (`insertSQL`, source line 23), executed
inside the open transaction.  `event_time` is assigned by the server. -/
def execInsertEvent (db : DB) (aggId : String) (version : Int) (typecode : String)
    (payload : List Nat) : Option String × DB :=
  match db.call with
  | (some msg, db1) => (some msg, db1)
  | (none, db1) =>
    if (aggId, version) ∈ db1.t_aeev_events.map EventRow.key then
      (some ledgerUniqueViolation, db1)
    else
      (none, { db1 with
        t_aeev_events := db1.t_aeev_events ++ [⟨aggId, version, typecode, payload, db1.clock⟩] })

/-- The statement `insert into t_aepb_publish (aggregate_id, version) values
(:1, :2)` (source lines 75 and 203). -/
def execInsertPublish (db : DB) (aggId : String) (version : Int) : Option String × DB :=
  match db.call with
  | (some msg, db1) => (some msg, db1)
  | (none, db1) =>
    if (aggId, version) ∈ db1.t_aepb_publish.map PublishRow.key then
      (some publishUniqueViolation, db1)
    else
      (none, { db1 with t_aepb_publish := db1.t_aepb_publish ++ [⟨aggId, version⟩] })

/-- A `*sql.Tx`.  Statements executed in the transaction write the relations in
place; the transaction remembers the contents at `Begin` so that a rollback
restores them.  `done` is set by `Commit` and makes a later `Rollback` a no-op
(`sql.ErrTxDone`). -/
structure Tx where
  undo_events : List EventRow
  undo_publish : List PublishRow
  done : Bool
deriving DecidableEq, Repr

/-- The call `db.Begin()`. -/
def Begin (db : DB) : Except String Tx × DB :=
  match db.call with
  | (some msg, db1) => (.error msg, db1)
  | (none, db1) =>
    (.ok { undo_events := db1.t_aeev_events, undo_publish := db1.t_aepb_publish, done := false },
     db1)

/-- The call `tx.Prepare(sql)`: a round trip that can fail; the prepared
statement itself is `execInsertEvent` or `execInsertPublish`. -/
def Prepare (db : DB) : Option String × DB := db.call

/-- The call `tx.Rollback()`: restores the relations as they were at `Begin`,
unless the transaction is already done. -/
def Tx.Rollback (tx : Tx) (db : DB) : DB :=
  if tx.done then db
  else { db with t_aeev_events := tx.undo_events, t_aepb_publish := tx.undo_publish }

/-- The call `tx.Commit()`: on success the rows written in the transaction
stay; when the backend fails the commit the transaction is aborted.  Either way
the transaction is done afterwards. -/
def Tx.Commit (tx : Tx) (db : DB) : Option String × Tx × DB :=
  match db.call with
  | (some msg, db1) =>
    (some msg, { tx with done := true },
     { db1 with t_aeev_events := tx.undo_events, t_aepb_publish := tx.undo_publish })
  | (none, db1) => (none, { tx with done := true }, db1)

/-- A `*sql.Rows` cursor over a result set of rows of type `α`: the rows not
yet fetched and the row under the cursor (`lastcols`, nil until `Next` has been
called).  `lasterr` is what `Err()` reports. -/
structure Rows (α : Type) where
  pending : List α
  lastcols : Option α
  lasterr : Option String

/-- The call `db.Query(sql, args...)`, `result` being what the select statement
yields on the current contents.  The cursor starts before the first row. -/
def Query {α : Type} (db : DB) (result : DB → List α) : Except String (Rows α) × DB :=
  match db.call with
  | (some msg, db1) => (.error msg, db1)
  | (none, db1) => (.ok { pending := result db1, lastcols := none, lasterr := none }, db1)

/-- The call `rows.Next()`: moves the cursor to the next row, false when there
is none. -/
def Rows.Next {α : Type} (rs : Rows α) : Bool × Rows α :=
  match rs.pending with
  | [] => (false, { rs with lastcols := none })
  | r :: rest => (true, { rs with pending := rest, lastcols := some r })

/-- The call `rows.Scan(&dest...)`: copies the row under the cursor into the
destination.  Without a preceding `Next` there is no row under the cursor:
`database/sql` returns the error "sql: Scan called without calling Next" and
leaves the destination as it was.  `convert` is the column conversion, which
fails on a SQL NULL scanned into a Go `int`. -/
def Rows.Scan {α β : Type} (rs : Rows α) (convert : α → Option β) (dest : β) :
    β × Option String :=
  match rs.lastcols with
  | none => (dest, some "sql: Scan called without calling Next")
  | some cols =>
    match convert cols with
    | none => (dest, some "sql: Scan error: converting NULL is unsupported")
    | some v => (v, none)

/-- The call `rows.Err()`. -/
def Rows.Err {α : Type} (rs : Rows α) : Option String := rs.lasterr

/-- The result of `select max(version) from t_aeev_events where aggregate_id =
:1`: SQL `max` over the matching rows, NULL (`none`) when there is none. -/
def selectMaxVersion (rows : List EventRow) (aggId : String) : Option Int :=
  ((rows.filter (fun r => r.aggregate_id = aggId)).map EventRow.version).foldl
    (fun acc v => match acc with
      | none => some v
      | some m => some (max m v)) none

/-- The result of `select version, typecode, payload from t_aeev_events where
aggregate_id = :1 order by version`. -/
def selectEventsByVersion (rows : List EventRow) (aggID : String) : List EventRow :=
  (rows.filter (fun r => r.aggregate_id = aggID)).insertionSort
    (fun a b => a.version ≤ b.version)

/-- The result of `select event_time, aggregate_id, version, typecode, payload
from t_aeev_events order by event_time`. -/
def selectAllByEventTime (rows : List EventRow) : List EventRow :=
  rows.insertionSort (fun a b => a.event_time ≤ b.event_time)

/-! ## Package `strings` -/

/-- Whether the characters `p` start the characters `s`. -/
def startsWith : List Char → List Char → Bool
  | _, [] => true
  | [], _ :: _ => false
  | c :: cs, p :: ps => decide (c = p) && startsWith cs ps

/-- Whether `sub` occurs in `s` as a run of consecutive characters. -/
def containsChars : List Char → List Char → Bool
  | [], sub => startsWith [] sub
  | c :: cs, sub => startsWith (c :: cs) sub || containsChars cs sub

/-- Go `strings.Contains`. -/
def strings.Contains (s substr : String) : Bool := containsChars s.data substr.data

/-! ## The store (`oraeventstore.go`) -/

/-- The name of the environment variable read by `NewOraEventStore`. -/
def EventPublishEnvVar : String := "ES_PUBLISH_EVENTS"

/-- The struct `OraEventStore`; its `db` field is the `DB` passed to every
operation. -/
structure OraEventStore where
  publish : Bool
deriving DecidableEq, Repr

/-- The method `GetMaxVersionForAggregate` (source lines 31-48).  The Go result `*int` is
`Option Int`.  The source calls `row.Scan(&max)` on the cursor returned by
`Query` without calling `row.Next()` and discards what `Scan` returns. -/
def GetMaxVersionForAggregate (db : DB) (aggId : String) :
    (Option Int × Option Error) × DB :=
  match Query db (fun d => [selectMaxVersion d.t_aeev_events aggId]) with
  | (.error msg, db1) => ((none, some (.backend msg)), db1)
  | (.ok row, db1) =>
    let max : Int := 0
    let max := (row.Scan id max).1
    match row.Err with
    | some msg => ((none, some (.backend msg)), db1)
    | none => ((some max, none), db1)

/-- The body of the loop `for _, e := range agg.Events` of `writeEvents`
(source lines 81-105).  `stmt.Close()` has no effect on the relations. -/
def writeEvents.loop (publish : Bool) (aggId : String) : List Event → DB → Option Error × DB
  | [], db => (none, db)
  | e :: es, db =>
    match e.Payload with
    | .other _ => (some .ErrPayloadType, db)
    | .bytes eventBytes =>
      match execInsertEvent db aggId e.Version e.TypeCode eventBytes with
      | (some _, db1) => (some .ErrEventInsert, db1)
      | (none, db1) =>
        if publish then
          match execInsertPublish db1 aggId e.Version with
          | (some _, db2) => (some .ErrPubInsert, db2)
          | (none, db2) => writeEvents.loop publish aggId es db2
        else writeEvents.loop publish aggId es db1

/-- The method `writeEvents` (source lines 56-119).  `defer tx.Rollback()` runs on every
return after `Begin` succeeded. -/
def writeEvents (ora : OraEventStore) (agg : Aggregate) (db : DB) : Option Error × DB :=
  match Begin db with
  | (.error msg, db1) => (some (.backend msg), db1)
  | (.ok tx, db1) =>
    let body : Option Error × Tx × DB :=
      match Prepare db1 with
      | (some msg, db2) => (some (.backend msg), tx, db2)
      | (none, db2) =>
        match (if ora.publish then Prepare db2 else (none, db2)) with
        | (some msg, db3) => (some (.backend msg), tx, db3)
        | (none, db3) =>
          match writeEvents.loop ora.publish agg.AggregateID agg.Events db3 with
          | (some err, db4) => (some err, tx, db4)
          | (none, db4) =>
            match tx.Commit db4 with
            | (some msg, tx1, db5) => (some (.backend msg), tx1, db5)
            | (none, tx1, db5) => (none, tx1, db5)
    (body.1, body.2.1.Rollback body.2.2)

/-- The method `StoreEvents` (source lines 121-137).  The guard dereferences the
pointer returned by `GetMaxVersionForAggregate`. -/
def StoreEvents (ora : OraEventStore) (agg : Aggregate) (db : DB) : Option Error × DB :=
  match GetMaxVersionForAggregate db agg.AggregateID with
  | ((_, some err), db1) => (some err, db1)
  | ((none, none), db1) => (some .nilDereference, db1)
  | ((some max, none), db1) =>
    if ¬ (max < agg.Version) then (some .ErrConcurrency, db1)
    else writeEvents ora agg db1

/-- The loop `for rows.Next()` of `RetrieveEvents` (source lines 150-165), over
the rows the cursor has not fetched yet.  `vars` are the variables `version`,
`typecode`, `payload` declared before the loop. -/
def RetrieveEvents.loop (aggID : String) :
    List EventRow → Int × String × List Nat → List Event → List Event
  | [], _, events => events
  | r :: rest, vars, events =>
    let rows := (Rows.Next ⟨r :: rest, none, none⟩).2
    let vars := (rows.Scan (fun c => some (c.version, c.typecode, c.payload)) vars).1
    RetrieveEvents.loop aggID rest vars
      (events ++ [⟨aggID, vars.1, vars.2.1, .bytes vars.2.2⟩])

/-- The method `RetrieveEvents` (source lines 139-170). -/
def RetrieveEvents (db : DB) (aggID : String) : (List Event × Option Error) × DB :=
  match Query db (fun d => selectEventsByVersion d.t_aeev_events aggID) with
  | (.error msg, db1) => (([], some (.backend msg)), db1)
  | (.ok rows, db1) =>
    let events := RetrieveEvents.loop aggID rows.pending (0, "", []) []
    ((events, (Rows.Err rows).map Error.backend), db1)

/-- The loop `for rows.Next()` of `RepublishAllEvents` (source lines 192-225),
over the rows the cursor has not fetched yet.  `vars` are `aggregateID` and
`version` declared before the loop (the other scanned columns are not used).
On a unique-constraint error the loop continues with the next row and leaves
the transaction as it is. -/
def RepublishAllEvents.loop : List EventRow → String × Int → DB → Option Error × DB
  | [], _, db => (none, db)
  | r :: rest, vars, db =>
    match Begin db with
    | (.error msg, db1) => (some (.backend msg), db1)
    | (.ok tx, db1) =>
      let rows := (Rows.Next ⟨r :: rest, none, none⟩).2
      let vars := (rows.Scan (fun c => some (c.aggregate_id, c.version)) vars).1
      match execInsertPublish db1 vars.1 vars.2 with
      | (some msg, db2) =>
        if strings.Contains msg "unique constraint" = false then (some (.backend msg), db2)
        else RepublishAllEvents.loop rest vars db2
      | (none, db2) =>
        match tx.Commit db2 with
        | (some msg, tx1, db3) => (some (.backend msg), tx1.Rollback db3)
        | (none, _, db3) => RepublishAllEvents.loop rest vars db3

/-- The method `RepublishAllEvents` (source lines 172-228). -/
def RepublishAllEvents (db : DB) : Option Error × DB :=
  match Query db (fun d => selectAllByEventTime d.t_aeev_events) with
  | (.error msg, db1) => (some (.backend msg), db1)
  | (.ok rows, db1) => RepublishAllEvents.loop rows.pending ("", 0) db1

/-- The constructor `NewOraEventStore` (source lines 230-246); `getenv` is
`os.Getenv`. -/
def NewOraEventStore (getenv : String → String) : OraEventStore × Option Error :=
  ({ publish := decide (getenv EventPublishEnvVar = "1") }, none)

/-! ## Properties stated over the relations -/

/-- Both relations of `db2` hold exactly the rows of `db1`, in the same order. -/
def SameTables (db1 db2 : DB) : Prop :=
  db2.t_aeev_events = db1.t_aeev_events ∧ db2.t_aepb_publish = db1.t_aepb_publish

/-- The ledger row written for pending event `e` of aggregate `aggId`: every
column but the server-assigned `event_time` is fixed by the event. -/
def RowOf (aggId : String) (e : Event) (r : EventRow) : Prop :=
  r.aggregate_id = aggId ∧ r.version = e.Version ∧ r.typecode = e.TypeCode ∧
    e.Payload = .bytes r.payload

/-- The outbox row matching pending event `e` of aggregate `aggId`. -/
def pubRowOf (aggId : String) (e : Event) : PublishRow := ⟨aggId, e.Version⟩

/-- The versions stored in the ledger for `aggId`, in insertion order. -/
def storedVersions (db : DB) (aggId : String) : List Int :=
  (db.t_aeev_events.filter (fun r => r.aggregate_id = aggId)).map EventRow.version

/-- The `goes.Event` that `RetrieveEvents` builds from a ledger row. -/
def eventOfRow (aggID : String) (r : EventRow) : Event :=
  ⟨aggID, r.version, r.typecode, .bytes r.payload⟩

/-- The ledger rows of aggregate `aggID`, in insertion order. -/
def rowsOf (db : DB) (aggID : String) : List EventRow :=
  db.t_aeev_events.filter (fun r => r.aggregate_id = aggID)

/-- A sequence of `StoreEvents` calls on one store, each call starting from the
database the previous one left. -/
def storeAll (ora : OraEventStore) : List Aggregate → DB → DB
  | [], db => db
  | agg :: rest, db => storeAll ora rest (StoreEvents ora agg db).2

/-- The versions 1, 2, ..., n. -/
def firstVersions (n : Nat) : List Int := (List.range' 1 n).map (fun k : Nat => (k : Int))

/-- The versions stored for `aggId` are exactly 1..N for some N, in insertion
order: contiguous, without duplicate and without gap. -/
def Contiguous (db : DB) (aggId : String) : Prop :=
  ∃ n : Nat, storedVersions db aggId = firstVersions n

/-- The highest version stored for `aggId`, 0 when there is none. -/
def highestStored (db : DB) (aggId : String) : Int :=
  (selectMaxVersion db.t_aeev_events aggId).getD 0

/-- The request numbers its pending events as the spec asks of the caller: the
versions are consecutive and continue a prior version `prior` of the aggregate
that is at most the highest version stored for its id. -/
def WellNumbered (db : DB) (agg : Aggregate) : Prop :=
  ∃ prior : Nat, (prior : Int) ≤ highestStored db agg.AggregateID ∧
    agg.Events.map Event.Version
      = (List.range' (prior + 1) agg.Events.length).map (fun k : Nat => (k : Int))

/-- Every request of the sequence is well numbered for the database its call
starts from. -/
def WellNumberedRun (ora : OraEventStore) : List Aggregate → DB → Prop
  | [], _ => True
  | agg :: rest, db => WellNumbered db agg ∧ WellNumberedRun ora rest (StoreEvents ora agg db).2

/-! ## Concrete stores and requests used to evaluate the operations -/

/-- A store with both relations empty and no scheduled backend failure. -/
def emptyDB : DB := ⟨[], [], [], 0⟩

/-- A ledger holding versions 1 and 2 of aggregate "a"; the outbox is empty. -/
def twoEventsDB : DB :=
  ⟨[⟨"a", 1, "TACRE", [1], 1⟩, ⟨"a", 2, "TAFU", [2], 2⟩], [], [], 2⟩

/-- A ledger holding version 1 of aggregate "a"; the outbox is empty. -/
def oneEventDB : DB := ⟨[⟨"a", 1, "TACRE", [1], 1⟩], [], [], 1⟩

/-- A request built on a stale read: the aggregate was loaded at version 1,
recorded one event as version 2 and asks for version 2, which is stored
already. -/
def staleAgg : Aggregate := ⟨"a", 2, [⟨"a", 2, "TAFU", .bytes [9]⟩]⟩

/-- A request whose intended version 2 is stored already and whose pending
event carries version 3. -/
def behindAgg : Aggregate := ⟨"a", 2, [⟨"a", 3, "TAFU", .bytes [9]⟩]⟩

/-- A request of two pending events whose second one carries version 1. -/
def clashAgg : Aggregate :=
  ⟨"a", 2, [⟨"a", 2, "TAFU", .bytes [9]⟩, ⟨"a", 1, "TACRE", .bytes [8]⟩]⟩

/-- A first writer's request for a new aggregate "a": one event, version 1. -/
def writerA : Aggregate := ⟨"a", 1, [⟨"a", 1, "TACRE", .bytes [1]⟩]⟩

/-- A second writer's request for the same new aggregate "a": one event,
version 1, built from the same read of the store as `writerA`. -/
def writerB : Aggregate := ⟨"a", 1, [⟨"a", 1, "TACRE", .bytes [2]⟩]⟩

/-- A request whose first pending event is a `[]byte` of version 1 and whose
second pending event carries a payload that is a Go `string`. -/
def badSecondAgg : Aggregate :=
  ⟨"a", 2, [⟨"a", 1, "TACRE", .bytes [1]⟩, ⟨"a", 2, "TAFU", .other "string"⟩]⟩

/-- A request for a new aggregate "a" whose only pending event carries
version 5. -/
def gapAgg : Aggregate := ⟨"a", 5, [⟨"a", 5, "TAFU", .bytes [1]⟩]⟩

/-! ## The backend primitives -/

theorem call_events (db : DB) : db.call.2.t_aeev_events = db.t_aeev_events := by
  unfold DB.call; split <;> rfl

theorem call_publish (db : DB) : db.call.2.t_aepb_publish = db.t_aepb_publish := by
  unfold DB.call; split <;> rfl

theorem call_faults (db : DB) : db.call.2.faults = db.faults.tail := by
  unfold DB.call; split <;> simp_all

theorem call_of_no_faults (db : DB) (h : db.faults = []) :
    db.call = (none, { db with clock := db.clock + 1 }) := by
  unfold DB.call; rw [h]

theorem sameTables_refl (db : DB) : SameTables db db := ⟨rfl, rfl⟩

theorem sameTables_trans {a b c : DB} (h1 : SameTables a b) (h2 : SameTables b c) :
    SameTables a c := ⟨h2.1.trans h1.1, h2.2.trans h1.2⟩

theorem sameTables_call (db : DB) : SameTables db db.call.2 :=
  ⟨call_events db, call_publish db⟩

theorem execInsertEvent_publish (db : DB) (a : String) (v : Int) (tc : String) (p : List Nat) :
    (execInsertEvent db a v tc p).2.t_aepb_publish = db.t_aepb_publish := by
  have h := call_publish db
  unfold execInsertEvent
  split
  · simp_all
  · split <;> simp_all

theorem execInsertEvent_err {db : DB} {a : String} {v : Int} {tc : String} {p : List Nat}
    {m : String} (h : (execInsertEvent db a v tc p).1 = some m) :
    SameTables db (execInsertEvent db a v tc p).2 := by
  have h1 := sameTables_call db
  unfold execInsertEvent at h ⊢
  split
  · simp_all
  · split
    · simp_all
    · simp_all

theorem execInsertEvent_ok {db db1 : DB} {a : String} {v : Int} {tc : String} {p : List Nat}
    (h : execInsertEvent db a v tc p = (none, db1)) :
    (a, v) ∉ db.t_aeev_events.map EventRow.key ∧
    db1.t_aeev_events = db.t_aeev_events ++ [⟨a, v, tc, p, db.call.2.clock⟩] ∧
    db1.t_aepb_publish = db.t_aepb_publish ∧ db1.faults = db.faults.tail := by
  have h1 := call_events db
  have h2 := call_publish db
  have h3 := call_faults db
  unfold execInsertEvent at h
  split at h
  · simp at h
  · rename_i d hc
    rw [hc] at h1 h2 h3
    simp only at h1 h2 h3
    split at h
    · simp at h
    · rename_i hk
      simp only [Prod.mk.injEq, true_and] at h
      subst h
      rw [h1] at hk
      simp [hk, h1, h2, h3, hc]

theorem execInsertPublish_events (db : DB) (a : String) (v : Int) :
    (execInsertPublish db a v).2.t_aeev_events = db.t_aeev_events := by
  have h := call_events db
  unfold execInsertPublish
  split
  · simp_all
  · split <;> simp_all

theorem execInsertPublish_err {db : DB} {a : String} {v : Int}
    {m : String} (h : (execInsertPublish db a v).1 = some m) :
    SameTables db (execInsertPublish db a v).2 := by
  have h1 := sameTables_call db
  unfold execInsertPublish at h ⊢
  split
  · simp_all
  · split
    · simp_all
    · simp_all

theorem execInsertPublish_ok {db db1 : DB} {a : String} {v : Int}
    (h : execInsertPublish db a v = (none, db1)) :
    (a, v) ∉ db.t_aepb_publish.map PublishRow.key ∧
    db1.t_aepb_publish = db.t_aepb_publish ++ [⟨a, v⟩] ∧
    db1.t_aeev_events = db.t_aeev_events ∧ db1.faults = db.faults.tail := by
  have h1 := call_events db
  have h2 := call_publish db
  have h3 := call_faults db
  unfold execInsertPublish at h
  split at h
  · simp at h
  · rename_i d hc
    rw [hc] at h1 h2 h3
    simp only at h1 h2 h3
    split at h
    · simp at h
    · rename_i hk
      simp only [Prod.mk.injEq, true_and] at h
      subst h
      rw [h2] at hk
      simp [hk, h1, h2, h3]

theorem Begin_ok {db db1 : DB} {tx : Tx} (h : Begin db = (.ok tx, db1)) :
    db.call = (none, db1) ∧
    tx = { undo_events := db.t_aeev_events, undo_publish := db.t_aepb_publish, done := false } := by
  have h1 := call_events db
  have h2 := call_publish db
  unfold Begin at h
  split at h
  · simp at h
  · rename_i d hc
    simp only [Prod.mk.injEq, Except.ok.injEq] at h
    obtain ⟨h3, h4⟩ := h
    subst h4
    rw [hc] at h1 h2
    simp only at h1 h2
    rw [hc, ← h3, h1, h2]
    simp

theorem Begin_err {db db1 : DB} {m : String} (h : Begin db = (.error m, db1)) :
    SameTables db db1 := by
  have h1 := sameTables_call db
  unfold Begin at h
  split at h
  · rename_i d hc
    simp only [Prod.mk.injEq] at h
    rw [hc] at h1
    rw [← h.2]
    exact h1
  · simp at h

theorem Commit_err {tx tx1 : Tx} {db db1 : DB} {m : String}
    (h : tx.Commit db = (some m, tx1, db1)) :
    tx1.done = true ∧ db1.t_aeev_events = tx.undo_events ∧
      db1.t_aepb_publish = tx.undo_publish := by
  unfold Tx.Commit at h
  split at h
  · simp only [Prod.mk.injEq] at h
    obtain ⟨-, h2, h3⟩ := h
    subst h2 h3
    simp
  · simp at h

theorem Commit_ok {tx tx1 : Tx} {db db1 : DB} (h : tx.Commit db = (none, tx1, db1)) :
    tx1.done = true ∧ db.call = (none, db1) := by
  unfold Tx.Commit at h
  split at h
  · simp at h
  · rename_i d hc
    simp only [Prod.mk.injEq, true_and] at h
    obtain ⟨h2, h3⟩ := h
    subst h2 h3
    simp [hc]

theorem Rollback_done {tx : Tx} (db : DB) (h : tx.done = true) : tx.Rollback db = db := by
  unfold Tx.Rollback; simp [h]

theorem Rollback_open {tx : Tx} (db : DB) (h : tx.done = false) :
    (tx.Rollback db).t_aeev_events = tx.undo_events ∧
      (tx.Rollback db).t_aepb_publish = tx.undo_publish := by
  unfold Tx.Rollback; simp [h]

/-! ## The insert loop of `writeEvents` -/

/-- What a completed run of the insert loop has done: one ledger row per
pending event, in order, the matching outbox rows when publishing, and every
key it wrote was new. -/
theorem writeEvents_loop_ok (pub : Bool) (aggId : String) :
    ∀ (es : List Event) (db db1 : DB), writeEvents.loop pub aggId es db = (none, db1) →
      ∃ rows : List EventRow,
        db1.t_aeev_events = db.t_aeev_events ++ rows ∧
        List.Forall₂ (RowOf aggId) es rows ∧
        db1.t_aepb_publish
          = db.t_aepb_publish ++ (if pub then es.map (pubRowOf aggId) else []) ∧
        (∀ e ∈ es, (aggId, e.Version) ∉ db.t_aeev_events.map EventRow.key) ∧
        (es.map Event.Version).Nodup := by
  intro es
  induction es with
  | nil =>
    intro db db1 h
    simp only [writeEvents.loop, Prod.mk.injEq, true_and] at h
    subst h
    exact ⟨[], by simp, List.Forall₂.nil, by simp, by simp, by simp⟩
  | cons e es ih =>
    intro db db1 h
    unfold writeEvents.loop at h
    split at h
    · simp at h
    · rename_i eventBytes hp
      split at h
      · simp at h
      · rename_i d1 hex
        obtain ⟨hfresh, hev, hpb, -⟩ := execInsertEvent_ok hex
        have key : ∀ (d2 : DB), d2.t_aeev_events = d1.t_aeev_events →
            d2.t_aepb_publish = db.t_aepb_publish ++ (if pub then [pubRowOf aggId e] else []) →
            writeEvents.loop pub aggId es d2 = (none, db1) →
            ∃ rows : List EventRow,
              db1.t_aeev_events = db.t_aeev_events ++ rows ∧
              List.Forall₂ (RowOf aggId) (e :: es) rows ∧
              db1.t_aepb_publish
                = db.t_aepb_publish ++ (if pub then (e :: es).map (pubRowOf aggId) else []) ∧
              (∀ x ∈ e :: es, (aggId, x.Version) ∉ db.t_aeev_events.map EventRow.key) ∧
              ((e :: es).map Event.Version).Nodup := by
          intro d2 he2 hp2 hl
          obtain ⟨rows, hr1, hr2, hr3, hr4, hr5⟩ := ih d2 db1 hl
          rw [he2, hev] at hr1 hr4
          refine ⟨⟨aggId, e.Version, e.TypeCode, eventBytes, db.call.2.clock⟩ :: rows, ?_,
            List.Forall₂.cons ⟨rfl, rfl, rfl, hp⟩ hr2, ?_, ?_, ?_⟩
          · rw [hr1]; simp
          · rw [hr3, hp2]; cases pub <;> simp
          · intro x hx
            rcases List.mem_cons.mp hx with rfl | hx
            · exact hfresh
            · intro hmem
              exact hr4 x hx (by simp only [List.map_append, List.mem_append]; exact Or.inl hmem)
          · simp only [List.map_cons, List.nodup_cons]
            refine ⟨?_, hr5⟩
            intro hmem
            obtain ⟨x, hx, hxv⟩ := List.mem_map.mp hmem
            apply hr4 x hx
            simp [EventRow.key, hxv]
        split at h
        · rename_i hpub
          split at h
          · simp at h
          · rename_i d2 hex2
            obtain ⟨-, hpb2, hev2, -⟩ := execInsertPublish_ok hex2
            exact key d2 hev2 (by rw [hpb2, hpb, hpub]; simp [pubRowOf]) h
        · rename_i hpub
          exact key d1 rfl (by rw [hpb]; simp [hpub]) h

/-- The loop over a list split in two runs the first part and, when that part
completes, the second part from where the first one stopped. -/
theorem writeEvents_loop_append (pub : Bool) (aggId : String) :
    ∀ (pre rest : List Event) (db : DB),
      writeEvents.loop pub aggId (pre ++ rest) db =
        match writeEvents.loop pub aggId pre db with
        | (none, d) => writeEvents.loop pub aggId rest d
        | (some err, d) => (some err, d) := by
  intro pre
  induction pre with
  | nil => intro rest db; simp [writeEvents.loop]
  | cons e es ih =>
    intro rest db
    simp only [List.cons_append, writeEvents.loop]
    split
    · rfl
    · split
      · rfl
      · split
        · split
          · rfl
          · exact ih rest _
        · exact ih rest _

/-! ## `writeEvents` and `StoreEvents` as a whole -/

/-- The two outcomes of `writeEvents`: an error with both relations as before
the call, or success with the relations as the insert loop left them. -/
theorem writeEvents_cases (ora : OraEventStore) (agg : Aggregate) (db : DB) :
    (∃ err, (writeEvents ora agg db).1 = some err ∧ SameTables db (writeEvents ora agg db).2) ∨
    ((writeEvents ora agg db).1 = none ∧ ∃ d d1 : DB, SameTables db d ∧
      writeEvents.loop ora.publish agg.AggregateID agg.Events d = (none, d1) ∧
      SameTables d1 (writeEvents ora agg db).2) := by
  unfold writeEvents
  split
  · rename_i msg db1 hB
    exact Or.inl ⟨_, rfl, Begin_err hB⟩
  · rename_i tx db1 hB
    obtain ⟨hc, htx⟩ := Begin_ok hB
    have hs1 : SameTables db db1 := by have := sameTables_call db; rwa [hc] at this
    have hopen : tx.done = false := by rw [htx]
    have hrb : ∀ d : DB, SameTables db (tx.Rollback d) := by
      intro d
      obtain ⟨h1, h2⟩ := Rollback_open d hopen
      exact ⟨by rw [h1, htx], by rw [h2, htx]⟩
    simp only [Prepare]
    split
    · exact Or.inl ⟨_, rfl, hrb _⟩
    · rename_i db2 hP
      have hs2 : SameTables db1 db2 := by have := sameTables_call db1; rwa [hP] at this
      split
      · exact Or.inl ⟨_, rfl, hrb _⟩
      · rename_i db3 hP2
        have hs3 : SameTables db2 db3 := by
          by_cases hp : ora.publish = true
          · rw [if_pos hp] at hP2
            have := sameTables_call db2; rwa [hP2] at this
          · rw [if_neg hp] at hP2
            simp only [Prod.mk.injEq, true_and] at hP2
            subst hP2; exact sameTables_refl _
        split
        · exact Or.inl ⟨_, rfl, hrb _⟩
        · rename_i db4 hL
          split
          · rename_i msg tx1 db5 hC
            obtain ⟨hd, he, hpb⟩ := Commit_err hC
            refine Or.inl ⟨_, rfl, ?_⟩
            simp only
            rw [Rollback_done _ hd]
            exact ⟨by rw [he, htx], by rw [hpb, htx]⟩
          · rename_i tx1 db5 hC
            obtain ⟨hd, hcc⟩ := Commit_ok hC
            refine Or.inr ⟨rfl, db3, db4, sameTables_trans (sameTables_trans hs1 hs2) hs3, hL, ?_⟩
            simp only
            rw [Rollback_done _ hd]
            have := sameTables_call db4; rwa [hcc] at this

/-- A failed `writeEvents` leaves both relations as they were. -/
theorem writeEvents_err {ora : OraEventStore} {agg : Aggregate} {db : DB} {err : Error}
    (h : (writeEvents ora agg db).1 = some err) : SameTables db (writeEvents ora agg db).2 := by
  rcases writeEvents_cases ora agg db with ⟨_, -, hs⟩ | ⟨hn, -⟩
  · exact hs
  · rw [hn] at h; cases h

/-- The method `GetMaxVersionForAggregate` reads only. -/
theorem GetMaxVersionForAggregate_sameTables (db : DB) (aggId : String) :
    SameTables db (GetMaxVersionForAggregate db aggId).2 := by
  have h := sameTables_call db
  unfold GetMaxVersionForAggregate Query
  split <;> rename_i hq <;> split at hq <;> rename_i hc <;>
    simp only [Prod.mk.injEq] at hq <;> rw [hc] at h
  · rw [← hq.2]; exact h
  · cases hq.1
  · cases hq.1
  · split <;> (simp only; rw [← hq.2]; exact h)

/-- The pointer returned by `GetMaxVersionForAggregate` without an error points
to 0, whatever the ledger holds. -/
theorem GetMaxVersionForAggregate_value (db : DB) (aggId : String) {r : Option Int} {d : DB}
    (h : GetMaxVersionForAggregate db aggId = ((r, none), d)) : r = some 0 := by
  unfold GetMaxVersionForAggregate Query at h
  split at h <;> rename_i hq <;> split at hq <;> rename_i hc <;>
    simp only [Prod.mk.injEq] at hq
  · simp at h
  · cases hq.1
  · cases hq.1
  · obtain ⟨hq1, -⟩ := hq
    simp only [Except.ok.injEq] at hq1
    subst hq1
    simp only [Rows.Err, Rows.Scan] at h
    simp only [Prod.mk.injEq] at h
    exact h.1.1.symm

/-- A failed `StoreEvents` leaves both relations as they were. -/
theorem StoreEvents_err {ora : OraEventStore} {agg : Aggregate} {db : DB} {err : Error}
    (h : (StoreEvents ora agg db).1 = some err) : SameTables db (StoreEvents ora agg db).2 := by
  have hg := GetMaxVersionForAggregate_sameTables db agg.AggregateID
  unfold StoreEvents at h ⊢
  split <;> rename_i hG <;> rw [hG] at hg
  · exact hg
  · exact hg
  · split
    · exact hg
    · rename_i hlt
      rw [hG] at h
      simp only [if_neg hlt] at h
      exact sameTables_trans hg (writeEvents_err h)

/-- What a successful `StoreEvents` has done, relative to the state before the
call. -/
theorem StoreEvents_ok {ora : OraEventStore} {agg : Aggregate} {db db1 : DB}
    (h : StoreEvents ora agg db = (none, db1)) :
    0 < agg.Version ∧ ∃ rows : List EventRow,
      db1.t_aeev_events = db.t_aeev_events ++ rows ∧
      List.Forall₂ (RowOf agg.AggregateID) agg.Events rows ∧
      db1.t_aepb_publish
        = db.t_aepb_publish ++ (if ora.publish then agg.Events.map (pubRowOf agg.AggregateID)
            else []) ∧
      (∀ e ∈ agg.Events, (agg.AggregateID, e.Version) ∉ db.t_aeev_events.map EventRow.key) ∧
      (agg.Events.map Event.Version).Nodup := by
  have hg := GetMaxVersionForAggregate_sameTables db agg.AggregateID
  unfold StoreEvents at h
  split at h <;> rename_i hG
  · simp at h
  · simp at h
  · rename_i mx d0
    have hv := GetMaxVersionForAggregate_value db agg.AggregateID hG
    simp only [Option.some.injEq] at hv
    subst hv
    rw [hG] at hg
    split at h
    · simp at h
    · rename_i hlt
      refine ⟨not_not.mp hlt, ?_⟩
      rcases writeEvents_cases ora agg d0 with ⟨err, he, -⟩ | ⟨-, d, d1, hs, hl, hs1⟩
      · rw [h] at he; cases he
      · rw [h] at hs1
        obtain ⟨rows, h1, h2, h3, h4, h5⟩ :=
          writeEvents_loop_ok ora.publish agg.AggregateID agg.Events d d1 hl
        have hs0 := sameTables_trans hg hs
        refine ⟨rows, ?_, h2, ?_, ?_, h5⟩
        · rw [hs1.1, h1, hs0.1]
        · rw [hs1.2, h3, hs0.2]
        · rw [hs0.1] at h4; exact h4

/-! ## `RetrieveEvents` -/

theorem RetrieveEvents_loop_eq (aggID : String) :
    ∀ (rows : List EventRow) (vars : Int × String × List Nat) (events : List Event),
      RetrieveEvents.loop aggID rows vars events = events ++ rows.map (eventOfRow aggID) := by
  intro rows
  induction rows with
  | nil => intro vars events; simp [RetrieveEvents.loop]
  | cons r rest ih =>
    intro vars events
    simp only [RetrieveEvents.loop, Rows.Next, Rows.Scan, ih]
    simp [eventOfRow]

/-- When the backend serves the query, `RetrieveEvents` returns the rows of the
aggregate sorted by version, each turned into an event, and a nil error. -/
theorem RetrieveEvents_eq (db : DB) (aggID : String) (hquery : db.call.1 = none) :
    (RetrieveEvents db aggID).1
      = ((selectEventsByVersion db.t_aeev_events aggID).map (eventOfRow aggID), none) := by
  have he := call_events db
  unfold RetrieveEvents Query
  cases hc : db.call with
  | mk f d =>
    rw [hc] at hquery he
    simp only at hquery he
    subst hquery
    simp [Rows.Err, RetrieveEvents_loop_eq, he]

theorem versions_nodup_of_keys_nodup (rows : List EventRow) (aggID : String)
    (h : (rows.map EventRow.key).Nodup) :
    (((rows.filter (fun r => r.aggregate_id = aggID))).map EventRow.version).Nodup := by
  induction rows with
  | nil => simp
  | cons r rest ih =>
    simp only [List.map_cons, List.nodup_cons] at h
    by_cases hr : r.aggregate_id = aggID
    · simp only [List.filter_cons, hr, decide_True, if_true, List.map_cons, List.nodup_cons]
      refine ⟨?_, ih h.2⟩
      intro hmem
      obtain ⟨x, hx, hxv⟩ := List.mem_map.mp hmem
      obtain ⟨hx1, hx2⟩ := List.mem_filter.mp hx
      apply h.1
      refine List.mem_map.mpr ⟨x, hx1, ?_⟩
      simp only [decide_eq_true_eq] at hx2
      simp [EventRow.key, hxv, hx2, hr]
    · simp only [List.filter_cons, hr, decide_False]
      exact ih h.2

/-- What the rows written for a list of pending events have in common with
the events. -/
theorem rowOf_forall₂ {aggId : String} {es : List Event} {rows : List EventRow}
    (h : List.Forall₂ (RowOf aggId) es rows) :
    rows.map EventRow.version = es.map Event.Version ∧
    (∀ r ∈ rows, r.aggregate_id = aggId) ∧
    rows.map (eventOfRow aggId) = es.map (fun e => { e with Source := aggId }) := by
  induction h with
  | nil => simp
  | cons hr _ ih =>
    rename_i e r es rows
    obtain ⟨h1, h2, h3, h4⟩ := hr
    obtain ⟨i1, i2, i3⟩ := ih
    refine ⟨by simp [h2, i1], ?_, ?_⟩
    · intro x hx
      rcases List.mem_cons.mp hx with rfl | hx
      · exact h1
      · exact i2 x hx
    · simp only [List.map_cons, i3, List.cons.injEq, and_true]
      cases e
      simp only [eventOfRow] at *
      simp [h2, h3, h4]

/-! ## Runs of the insert loop without backend failures -/

theorem execInsertEvent_fresh (db : DB) {a : String} {v : Int} (tc : String) (p : List Nat)
    (hf : db.faults = []) (hk : (a, v) ∉ db.t_aeev_events.map EventRow.key) :
    execInsertEvent db a v tc p =
      (none, { db with t_aeev_events := db.t_aeev_events ++ [⟨a, v, tc, p, db.clock + 1⟩],
                       clock := db.clock + 1 }) := by
  unfold execInsertEvent
  rw [call_of_no_faults db hf]
  simp only [hk, if_false]

theorem execInsertEvent_dup (db : DB) {a : String} {v : Int} (tc : String) (p : List Nat)
    (hf : db.faults = []) (hk : (a, v) ∈ db.t_aeev_events.map EventRow.key) :
    execInsertEvent db a v tc p = (some ledgerUniqueViolation, { db with clock := db.clock + 1 }) := by
  unfold execInsertEvent
  rw [call_of_no_faults db hf]
  simp only [hk, if_true]

theorem execInsertPublish_fresh (db : DB) {a : String} {v : Int}
    (hf : db.faults = []) (hk : (a, v) ∉ db.t_aepb_publish.map PublishRow.key) :
    execInsertPublish db a v =
      (none, { db with t_aepb_publish := db.t_aepb_publish ++ [⟨a, v⟩],
                       clock := db.clock + 1 }) := by
  unfold execInsertPublish
  rw [call_of_no_faults db hf]
  simp only [hk, if_false]

theorem execInsertPublish_dup (db : DB) {a : String} {v : Int}
    (hf : db.faults = []) (hk : (a, v) ∈ db.t_aepb_publish.map PublishRow.key) :
    execInsertPublish db a v = (some publishUniqueViolation, { db with clock := db.clock + 1 }) := by
  unfold execInsertPublish
  rw [call_of_no_faults db hf]
  simp only [hk, if_true]

/-- Without backend failures the insert loop completes when every payload is a
`[]byte`, the pending versions are distinct and their keys are in neither
relation. -/
theorem writeEvents_loop_succeeds (pub : Bool) (aggId : String) :
    ∀ (es : List Event) (db : DB), db.faults = [] →
      (∀ e ∈ es, ∃ p, e.Payload = .bytes p) →
      (es.map Event.Version).Nodup →
      (∀ e ∈ es, (aggId, e.Version) ∉ db.t_aeev_events.map EventRow.key) →
      (pub = true → ∀ e ∈ es, (aggId, e.Version) ∉ db.t_aepb_publish.map PublishRow.key) →
      ∃ d : DB, writeEvents.loop pub aggId es db = (none, d) ∧ d.faults = [] := by
  intro es
  induction es with
  | nil => intro db hf _ _ _ _; exact ⟨db, rfl, hf⟩
  | cons e es ih =>
    intro db hf hb hnd hfr hpf
    obtain ⟨p, hp⟩ := hb e (List.mem_cons_self _ _)
    simp only [List.map_cons, List.nodup_cons] at hnd
    have hrest : ∀ x ∈ es, x.Version ≠ e.Version := by
      intro x hx hxe
      exact hnd.1 (List.mem_map.mpr ⟨x, hx, hxe⟩)
    simp only [writeEvents.loop, hp,
      execInsertEvent_fresh db e.TypeCode p hf (hfr e (List.mem_cons_self _ _))]
    cases pub with
    | false =>
      simp only [Bool.false_eq_true, if_false]
      refine ih _ ?_ (fun x hx => hb x (List.mem_cons_of_mem _ hx)) hnd.2 ?_ ?_
      · exact hf
      · intro x hx
        have := hfr x (List.mem_cons_of_mem _ hx)
        simp only [List.map_append, List.mem_append, List.map_cons, List.map_nil,
          List.mem_singleton, EventRow.key, Prod.mk.injEq, true_and, not_or]
        exact ⟨this, hrest x hx⟩
      · intro h; cases h
    | true =>
      simp only [if_true]
      rw [execInsertPublish_fresh ({ db with
          t_aeev_events := db.t_aeev_events ++ [⟨aggId, e.Version, e.TypeCode, p, db.clock + 1⟩],
          clock := db.clock + 1 }) hf (hpf rfl e (List.mem_cons_self _ _))]
      simp only
      refine ih _ ?_ (fun x hx => hb x (List.mem_cons_of_mem _ hx)) hnd.2 ?_ ?_
      · exact hf
      · intro x hx
        have := hfr x (List.mem_cons_of_mem _ hx)
        simp only [List.map_append, List.mem_append, List.map_cons, List.map_nil,
          List.mem_singleton, EventRow.key, Prod.mk.injEq, true_and, not_or]
        exact ⟨this, hrest x hx⟩
      · intro _ x hx
        have := hpf rfl x (List.mem_cons_of_mem _ hx)
        simp only [List.map_append, List.mem_append, List.map_cons, List.map_nil,
          List.mem_singleton, PublishRow.key, Prod.mk.injEq, true_and, not_or]
        exact ⟨this, hrest x hx⟩

/-- Without backend failures, with `[]byte` payloads and an outbox whose keys
are all in the ledger, the insert loop stops with `ErrEventInsert` as soon as
one pending version is stored already. -/
theorem writeEvents_loop_clash (pub : Bool) (aggId : String) :
    ∀ (es : List Event) (db : DB), db.faults = [] →
      (∀ e ∈ es, ∃ p, e.Payload = .bytes p) →
      (∃ e ∈ es, (aggId, e.Version) ∈ db.t_aeev_events.map EventRow.key) →
      (pub = true → ∀ k ∈ db.t_aepb_publish.map PublishRow.key,
        k ∈ db.t_aeev_events.map EventRow.key) →
      ∃ d : DB, writeEvents.loop pub aggId es db = (some Error.ErrEventInsert, d) := by
  intro es
  induction es with
  | nil => intro db _ _ hex _; obtain ⟨e, he, -⟩ := hex; cases he
  | cons e es ih =>
    intro db hf hb hex hsub
    obtain ⟨p, hp⟩ := hb e (List.mem_cons_self _ _)
    by_cases hk : (aggId, e.Version) ∈ db.t_aeev_events.map EventRow.key
    · exact ⟨{ db with clock := db.clock + 1 },
        by simp only [writeEvents.loop, hp, execInsertEvent_dup db e.TypeCode p hf hk]⟩
    · have hex1 : ∃ x ∈ es, (aggId, x.Version) ∈
          (db.t_aeev_events ++
            [(⟨aggId, e.Version, e.TypeCode, p, db.clock + 1⟩ : EventRow)]).map
            EventRow.key := by
        obtain ⟨x, hx, hxk⟩ := hex
        rcases List.mem_cons.mp hx with rfl | hx
        · exact absurd hxk hk
        · exact ⟨x, hx, by simp only [List.map_append, List.mem_append]; exact Or.inl hxk⟩
      simp only [writeEvents.loop, hp, execInsertEvent_fresh db e.TypeCode p hf hk]
      cases pub with
      | false =>
        simp only [Bool.false_eq_true, if_false]
        refine ih _ ?_ (fun x hx => hb x (List.mem_cons_of_mem _ hx)) hex1 (by intro h; cases h)
        exact hf
      | true =>
        simp only [if_true]
        have hpk : (aggId, e.Version) ∉ db.t_aepb_publish.map PublishRow.key :=
          fun h => hk (hsub rfl _ h)
        rw [execInsertPublish_fresh ({ db with
          t_aeev_events := db.t_aeev_events ++ [⟨aggId, e.Version, e.TypeCode, p, db.clock + 1⟩],
          clock := db.clock + 1 }) hf hpk]
        simp only
        refine ih _ ?_ (fun x hx => hb x (List.mem_cons_of_mem _ hx)) hex1 ?_
        · exact hf
        intro _ k hk1
        simp only [List.map_append, List.mem_append, List.map_cons, List.map_nil,
          List.mem_singleton] at hk1 ⊢
        rcases hk1 with h | h
        · exact Or.inl (hsub rfl k h)
        · exact Or.inr (by rw [h]; rfl)

/-- Without backend failures `writeEvents` reaches the insert loop on the
relations as they are, returns the error of the loop if it stops, and commits
what the loop wrote if it completes. -/
theorem writeEvents_no_faults (ora : OraEventStore) (agg : Aggregate) (db : DB)
    (hf : db.faults = []) :
    ∃ d3 : DB, SameTables db d3 ∧ d3.faults = [] ∧
      (∀ (err : Error) (d4 : DB),
        writeEvents.loop ora.publish agg.AggregateID agg.Events d3 = (some err, d4) →
        (writeEvents ora agg db).1 = some err) ∧
      (∀ d4 : DB,
        writeEvents.loop ora.publish agg.AggregateID agg.Events d3 = (none, d4) →
        d4.faults = [] →
        writeEvents ora agg db = (none, { d4 with clock := d4.clock + 1 })) := by
  have hB : Begin db = (.ok ⟨db.t_aeev_events, db.t_aepb_publish, false⟩,
      { db with clock := db.clock + 1 }) := by
    unfold Begin; rw [call_of_no_faults db hf]
  have hP1 : Prepare { db with clock := db.clock + 1 }
      = (none, { db with clock := db.clock + 1 + 1 }) := by
    unfold Prepare; exact call_of_no_faults { db with clock := db.clock + 1 } hf
  have hP2 : Prepare { db with clock := db.clock + 1 + 1 }
      = (none, { db with clock := db.clock + 1 + 1 + 1 }) := by
    unfold Prepare; exact call_of_no_faults { db with clock := db.clock + 1 + 1 } hf
  cases hpub : ora.publish with
  | false =>
    refine ⟨{ db with clock := db.clock + 1 + 1 }, ⟨rfl, rfl⟩, hf, ?_, ?_⟩
    · intro err d4 hl
      unfold writeEvents
      rw [hB]
      simp only [hP1, hpub, Bool.false_eq_true, if_false, hl]
    · intro d4 hl hf4
      unfold writeEvents
      rw [hB]
      simp only [hP1, hpub, Bool.false_eq_true, if_false, hl]
      simp only [Tx.Commit, call_of_no_faults d4 hf4, Tx.Rollback, if_true]
  | true =>
    refine ⟨{ db with clock := db.clock + 1 + 1 + 1 }, ⟨rfl, rfl⟩, hf, ?_, ?_⟩
    · intro err d4 hl
      unfold writeEvents
      rw [hB]
      simp only [hP1, hP2, hpub, if_true, hl]
    · intro d4 hl hf4
      unfold writeEvents
      rw [hB]
      simp only [hP1, hP2, hpub, if_true, hl]
      simp only [Tx.Commit, call_of_no_faults d4 hf4, Tx.Rollback, if_true]

/-- The keys of the rows written for a list of pending events. -/
theorem rowOf_forall₂_keys {aggId : String} {es : List Event} {rows : List EventRow}
    (h : List.Forall₂ (RowOf aggId) es rows) :
    rows.map EventRow.key = (es.map Event.Version).map (Prod.mk aggId) := by
  induction h with
  | nil => simp
  | cons hr _ ih =>
    obtain ⟨h1, h2, -, -⟩ := hr
    simp only [List.map_cons, ih, List.cons.injEq, and_true]
    simp [EventRow.key, h1, h2]

/-- A completed insert loop keeps the ledger free of duplicate keys. -/
theorem writeEvents_loop_nodup {pub : Bool} {aggId : String} {es : List Event} {db db1 : DB}
    (h : writeEvents.loop pub aggId es db = (none, db1))
    (hu : (db.t_aeev_events.map EventRow.key).Nodup) :
    (db1.t_aeev_events.map EventRow.key).Nodup := by
  obtain ⟨rows, h1, h2, -, h4, h5⟩ := writeEvents_loop_ok pub aggId es db db1 h
  rw [h1, List.map_append, rowOf_forall₂_keys h2]
  refine List.Nodup.append hu (h5.map (fun _ _ hxy => (Prod.mk.inj hxy).2)) ?_
  intro k hk1 hk2
  obtain ⟨v, hv, rfl⟩ := List.mem_map.mp hk2
  obtain ⟨e, he, rfl⟩ := List.mem_map.mp hv
  exact h4 e he hk1

/-! ## `RepublishAllEvents` -/

theorem publishUniqueViolation_contains :
    strings.Contains publishUniqueViolation "unique constraint" = true := by decide

/-- One pass of the republish loop without backend failures: it returns nil,
leaves the ledger alone, keeps every outbox row and the outbox keys distinct,
has the key of every scanned row in the outbox at its exit, and changes nothing
when those keys were all there. -/
theorem RepublishAllEvents_loop_no_faults :
    ∀ (rows : List EventRow) (vars : String × Int) (db : DB), db.faults = [] →
      (db.t_aepb_publish.map PublishRow.key).Nodup →
      ∃ d : DB, RepublishAllEvents.loop rows vars db = (none, d) ∧ d.faults = [] ∧
        d.t_aeev_events = db.t_aeev_events ∧
        (d.t_aepb_publish.map PublishRow.key).Nodup ∧
        (∃ added, d.t_aepb_publish = db.t_aepb_publish ++ added) ∧
        (∀ r ∈ rows, r.key ∈ d.t_aepb_publish.map PublishRow.key) ∧
        ((∀ r ∈ rows, r.key ∈ db.t_aepb_publish.map PublishRow.key) →
          d.t_aepb_publish = db.t_aepb_publish) := by
  intro rows
  induction rows with
  | nil =>
    intro vars db hf hu
    exact ⟨db, rfl, hf, rfl, hu, ⟨[], by simp⟩, by simp, fun _ => rfl⟩
  | cons r rest ih =>
    intro vars db hf hu
    have hB : Begin db = (.ok ⟨db.t_aeev_events, db.t_aepb_publish, false⟩,
        { db with clock := db.clock + 1 }) := by
      unfold Begin; rw [call_of_no_faults db hf]
    simp only [RepublishAllEvents.loop, hB, Rows.Next, Rows.Scan]
    by_cases hk : (r.aggregate_id, r.version) ∈ db.t_aepb_publish.map PublishRow.key
    · rw [execInsertPublish_dup ({ db with clock := db.clock + 1 }) hf hk]
      simp only [publishUniqueViolation_contains, Bool.true_eq_false, if_false]
      obtain ⟨d, h1, h2, h3, h4, h5, h6, h7⟩ :=
        ih (r.aggregate_id, r.version) { db with clock := db.clock + 1 + 1 } hf hu
      refine ⟨d, h1, h2, h3, h4, h5, ?_, ?_⟩
      · intro x hx
        rcases List.mem_cons.mp hx with rfl | hx
        · obtain ⟨added, ha⟩ := h5
          rw [ha, List.map_append, List.mem_append]
          exact Or.inl hk
        · exact h6 x hx
      · intro hall
        exact h7 (fun x hx => hall x (List.mem_cons_of_mem _ hx))
    · rw [execInsertPublish_fresh ({ db with clock := db.clock + 1 }) hf hk]
      have hC : ∀ d : DB, d.faults = [] →
          Tx.Commit ⟨db.t_aeev_events, db.t_aepb_publish, false⟩ d
            = (none, ⟨db.t_aeev_events, db.t_aepb_publish, true⟩,
                { d with clock := d.clock + 1 }) := by
        intro d hd
        unfold Tx.Commit; rw [call_of_no_faults d hd]
      simp only
      rw [hC { db with t_aepb_publish := db.t_aepb_publish ++ [⟨r.aggregate_id, r.version⟩],
                       clock := db.clock + 1 + 1 } hf]
      simp only
      have hu1 : ((db.t_aepb_publish ++ [(⟨r.aggregate_id, r.version⟩ : PublishRow)]).map
          PublishRow.key).Nodup := by
        rw [List.map_append]
        refine List.Nodup.append hu (by simp) ?_
        intro k hk1 hk2
        simp only [List.map_cons, List.map_nil, List.mem_singleton] at hk2
        subst hk2
        exact hk hk1
      obtain ⟨d, h1, h2, h3, h4, h5, h6, h7⟩ :=
        ih (r.aggregate_id, r.version)
          { db with t_aepb_publish := db.t_aepb_publish ++ [⟨r.aggregate_id, r.version⟩],
                    clock := db.clock + 1 + 1 + 1 } hf hu1
      refine ⟨d, h1, h2, h3, h4, ?_, ?_, ?_⟩
      · obtain ⟨added, ha⟩ := h5
        exact ⟨⟨r.aggregate_id, r.version⟩ :: added, by rw [ha]; simp⟩
      · intro x hx
        rcases List.mem_cons.mp hx with rfl | hx
        · obtain ⟨added, ha⟩ := h5
          rw [ha]
          simp [PublishRow.key, EventRow.key]
        · exact h6 x hx
      · intro hall
        exact absurd (hall r (List.mem_cons_self _ _)) hk

/-- The method `RepublishAllEvents` without backend failures, on an outbox that respects
its uniqueness constraint. -/
theorem RepublishAllEvents_no_faults (db : DB) (hf : db.faults = [])
    (hu : (db.t_aepb_publish.map PublishRow.key).Nodup) :
    ∃ d : DB, RepublishAllEvents db = (none, d) ∧ d.faults = [] ∧
      d.t_aeev_events = db.t_aeev_events ∧
      (d.t_aepb_publish.map PublishRow.key).Nodup ∧
      (∃ added, d.t_aepb_publish = db.t_aepb_publish ++ added) ∧
      (∀ k ∈ db.t_aeev_events.map EventRow.key, k ∈ d.t_aepb_publish.map PublishRow.key) ∧
      ((∀ k ∈ db.t_aeev_events.map EventRow.key, k ∈ db.t_aepb_publish.map PublishRow.key) →
        d.t_aepb_publish = db.t_aepb_publish) := by
  have hQ : RepublishAllEvents db
      = RepublishAllEvents.loop (selectAllByEventTime db.t_aeev_events) ("", 0)
          { db with clock := db.clock + 1 } := by
    unfold RepublishAllEvents Query
    rw [call_of_no_faults db hf]
  have hmem : ∀ r, r ∈ selectAllByEventTime db.t_aeev_events ↔ r ∈ db.t_aeev_events :=
    fun r => (List.perm_insertionSort _ _).mem_iff
  obtain ⟨d, h1, h2, h3, h4, h5, h6, h7⟩ :=
    RepublishAllEvents_loop_no_faults (selectAllByEventTime db.t_aeev_events) ("", 0)
      { db with clock := db.clock + 1 } hf hu
  refine ⟨d, by rw [hQ, h1], h2, h3, h4, h5, ?_, ?_⟩
  · intro k hk
    obtain ⟨r, hr, rfl⟩ := List.mem_map.mp hk
    exact h6 r ((hmem r).mpr hr)
  · intro hall
    exact h7 (fun r hr => hall _ (List.mem_map.mpr ⟨r, (hmem r).mp hr, rfl⟩))

/-! ## Sequences of `StoreEvents` calls -/

theorem mem_keys_iff (db : DB) (aggId : String) (v : Int) :
    (aggId, v) ∈ db.t_aeev_events.map EventRow.key ↔ v ∈ storedVersions db aggId := by
  simp only [storedVersions, List.mem_map, List.mem_filter, EventRow.key, Prod.mk.injEq,
    decide_eq_true_eq]
  constructor
  · rintro ⟨r, hr, h1, h2⟩; exact ⟨r, ⟨hr, h1⟩, h2⟩
  · rintro ⟨r, ⟨hr, h1⟩, h2⟩; exact ⟨r, hr, h1, h2⟩

theorem firstVersions_succ (n : Nat) :
    firstVersions (n + 1) = firstVersions n ++ [((n + 1 : Nat) : Int)] := by
  simp only [firstVersions, List.range'_concat, List.map_append, List.map_cons, List.map_nil,
    Nat.one_mul]
  rw [Nat.add_comm 1 n]

theorem mem_firstVersions (n : Nat) (k : Nat) :
    ((k : Nat) : Int) ∈ firstVersions n ↔ 1 ≤ k ∧ k ≤ n := by
  simp only [firstVersions, List.mem_map, List.mem_range'_1]
  constructor
  · rintro ⟨m, ⟨h1, h2⟩, h3⟩
    have : m = k := by exact_mod_cast h3
    omega
  · rintro ⟨h1, h2⟩
    exact ⟨k, ⟨h1, by omega⟩, rfl⟩

theorem highestStored_of_contiguous {db : DB} {aggId : String} {n : Nat}
    (h : storedVersions db aggId = firstVersions n) : highestStored db aggId = n := by
  have key : ∀ m : Nat, (firstVersions (m + 1)).foldl
      (fun acc v => match acc with
        | none => some v
        | some mx => some (max mx v)) (none : Option Int) = some ((m + 1 : Nat) : Int) := by
    intro m
    induction m with
    | zero => rfl
    | succ m ih =>
      rw [firstVersions_succ, List.foldl_append, ih]
      simp only [List.foldl_cons, List.foldl_nil, Option.some.injEq]
      push_cast
      omega
  unfold highestStored selectMaxVersion
  unfold storedVersions at h
  rw [h]
  cases n with
  | zero => rfl
  | succ m => rw [key m]; rfl

theorem storedVersions_append (db d : DB) (rows : List EventRow) (aggId : String)
    (h : d.t_aeev_events = db.t_aeev_events ++ rows) :
    storedVersions d aggId = storedVersions db aggId ++
      (rows.filter (fun r => r.aggregate_id = aggId)).map EventRow.version := by
  simp [storedVersions, h]

/-- One `StoreEvents` call with a well numbered request keeps the stored
versions of every aggregate contiguous from 1. -/
theorem StoreEvents_contiguous (ora : OraEventStore) (agg : Aggregate) (db : DB)
    (hinv : ∀ aggId, Contiguous db aggId) (hwn : WellNumbered db agg) :
    ∀ aggId, Contiguous (StoreEvents ora agg db).2 aggId := by
  intro aggId
  cases hres : StoreEvents ora agg db with
  | mk err d =>
    cases err with
    | some e =>
      have hs : SameTables db (StoreEvents ora agg db).2 := StoreEvents_err (by rw [hres])
      rw [hres] at hs
      obtain ⟨n, hn⟩ := hinv aggId
      have hs1 : d.t_aeev_events = db.t_aeev_events := hs.1
      exact ⟨n, by rw [← hn]; simp [storedVersions, hs1]⟩
    | none =>
      obtain ⟨-, rows, h1, h2, -, h4, -⟩ := StoreEvents_ok hres
      obtain ⟨hv, hid, -⟩ := rowOf_forall₂ h2
      obtain ⟨n, hn⟩ := hinv aggId
      simp only
      unfold Contiguous
      rw [storedVersions_append db d rows aggId h1]
      by_cases hne : aggId = agg.AggregateID
      · subst hne
        have hf1 : rows.filter (fun r => r.aggregate_id = agg.AggregateID) = rows := by
          rw [List.filter_eq_self]
          intro r hr
          simpa using hid r hr
        obtain ⟨prior, hp1, hp2⟩ := hwn
        rw [highestStored_of_contiguous hn] at hp1
        have hpn : prior ≤ n := by exact_mod_cast hp1
        rw [hf1, hv, hp2, hn]
        cases hes : agg.Events with
        | nil => exact ⟨n, by simp⟩
        | cons e es =>
          have hfresh := h4 e (by rw [hes]; exact List.mem_cons_self _ _)
          rw [mem_keys_iff, hn] at hfresh
          have hev : e.Version = ((prior + 1 : Nat) : Int) := by
            rw [hes] at hp2
            simp only [List.map_cons, List.length_cons, List.range'_succ, List.cons.injEq] at hp2
            exact hp2.1
          rw [hev, mem_firstVersions] at hfresh
          have hpeq : prior = n := by omega
          subst hpeq
          refine ⟨(e :: es).length + prior, ?_⟩
          unfold firstVersions
          rw [← List.map_append, Nat.add_comm prior 1, List.range'_append_1]
      · have hf0 : rows.filter (fun r => r.aggregate_id = aggId) = [] := by
          rw [List.filter_eq_nil_iff]
          intro r hr
          have := hid r hr
          simp only [decide_eq_true_eq]
          rw [this]
          exact fun h => hne h.symm
        exact ⟨n, by rw [hf0, hn]; simp⟩

/-- A `StoreEvents` call keeps the ledger free of duplicate keys. -/
theorem StoreEvents_nodup (ora : OraEventStore) (agg : Aggregate) (db : DB)
    (hu : (db.t_aeev_events.map EventRow.key).Nodup) :
    ((StoreEvents ora agg db).2.t_aeev_events.map EventRow.key).Nodup := by
  cases hres : StoreEvents ora agg db with
  | mk err d =>
    cases err with
    | some e =>
      have hs : SameTables db (StoreEvents ora agg db).2 := StoreEvents_err (by rw [hres])
      rw [hres] at hs
      have hs1 : d.t_aeev_events = db.t_aeev_events := hs.1
      simp only
      rw [hs1]
      exact hu
    | none =>
      obtain ⟨-, rows, h1, h2, -, h4, h5⟩ := StoreEvents_ok hres
      simp only
      rw [h1, List.map_append, rowOf_forall₂_keys h2]
      refine List.Nodup.append hu (h5.map (fun _ _ hxy => (Prod.mk.inj hxy).2)) ?_
      intro k hk1 hk2
      obtain ⟨v, hv, rfl⟩ := List.mem_map.mp hk2
      obtain ⟨e, he, rfl⟩ := List.mem_map.mp hv
      exact h4 e he hk1

theorem storeAll_nodup (ora : OraEventStore) :
    ∀ (reqs : List Aggregate) (db : DB), (db.t_aeev_events.map EventRow.key).Nodup →
      ((storeAll ora reqs db).t_aeev_events.map EventRow.key).Nodup := by
  intro reqs
  induction reqs with
  | nil => intro db hu; exact hu
  | cons agg rest ih =>
    intro db hu
    exact ih _ (StoreEvents_nodup ora agg db hu)

theorem storeAll_contiguous (ora : OraEventStore) :
    ∀ (reqs : List Aggregate) (db : DB), (∀ aggId, Contiguous db aggId) →
      WellNumberedRun ora reqs db → ∀ aggId, Contiguous (storeAll ora reqs db) aggId := by
  intro reqs
  induction reqs with
  | nil => intro db hinv _; exact hinv
  | cons agg rest ih =>
    intro db hinv hrun
    exact ih _ (StoreEvents_contiguous ora agg db hinv hrun.1) hrun.2

/-! ## The claims -/

/-- C1 (evaluation at the failing input): the ledger holds versions 1 and 2 of
aggregate "a", so the highest stored version is 2.  A request with intended
version 2 is not rejected with `ErrConcurrency`: the guard compares against 0.
The stale request reaches the insert and gets `ErrEventInsert`; a request with
intended version 2 and a pending event of version 3 is stored. -/
theorem StoreEvents_version_not_above_max :
    selectMaxVersion twoEventsDB.t_aeev_events "a" = some 2 ∧
    staleAgg.Version ≤ 2 ∧
    (StoreEvents ⟨false⟩ staleAgg twoEventsDB).1 = some Error.ErrEventInsert ∧
    behindAgg.Version ≤ 2 ∧
    (StoreEvents ⟨false⟩ behindAgg twoEventsDB).1 = none ∧
    (StoreEvents ⟨false⟩ behindAgg twoEventsDB).2.t_aeev_events
      = twoEventsDB.t_aeev_events ++ [⟨"a", 3, "TAFU", [9], 6⟩] := by
  decide

/-- C2 (counterexample): with no ledger row for "a" the query succeeds and
`GetMaxVersionForAggregate` returns a pointer to 0 and a nil error, not "none". -/
theorem GetMaxVersionForAggregate_empty_not_none :
    (GetMaxVersionForAggregate emptyDB "a").1 = (some 0, none) ∧
    (GetMaxVersionForAggregate emptyDB "a").1.1 ≠ none := by
  decide

/-- C2 (amended): for every ledger and every aggregate id without a ledger row,
when the query succeeds the SQL `max` is NULL and `GetMaxVersionForAggregate`
returns a nil error with a non-nil pointer to 0. -/
theorem GetMaxVersionForAggregate_no_rows (db : DB) (aggId : String)
    (hquery : db.call.1 = none)
    (hnone : ∀ r ∈ db.t_aeev_events, r.aggregate_id ≠ aggId) :
    selectMaxVersion db.t_aeev_events aggId = none ∧
    (GetMaxVersionForAggregate db aggId).1 = (some 0, none) := by
  constructor
  · have hf : db.t_aeev_events.filter (fun r => r.aggregate_id = aggId) = [] := by
      rw [List.filter_eq_nil_iff]
      intro r hr
      simpa using hnone r hr
    simp [selectMaxVersion, hf]
  · unfold GetMaxVersionForAggregate Query
    cases hc : db.call with
    | mk f d =>
      rw [hc] at hquery
      simp only at hquery
      subst hquery
      simp [Rows.Err, Rows.Scan]

/-- C2 (witness): the amended statement at the empty store and aggregate "a". -/
theorem GetMaxVersionForAggregate_no_rows_witness :
    selectMaxVersion emptyDB.t_aeev_events "a" = none ∧
    (GetMaxVersionForAggregate emptyDB "a").1 = (some 0, none) :=
  GetMaxVersionForAggregate_no_rows emptyDB "a" (by decide) (by decide)

/-- C10: for a store built by `NewOraEventStore`, a successful `StoreEvents`
appends to the ledger exactly one row per pending event, in sequence order, and
changes no other ledger row; the outbox is unchanged when the environment
variable "ES_PUBLISH_EVENTS" is not "1", and gains exactly the matching row per
pending event, in order, when it is "1". -/
theorem StoreEvents_success_frame (getenv : String → String) (agg : Aggregate) (db db1 : DB)
    (h : StoreEvents (NewOraEventStore getenv).1 agg db = (none, db1)) :
    (∃ rows : List EventRow,
      db1.t_aeev_events = db.t_aeev_events ++ rows ∧
      List.Forall₂ (RowOf agg.AggregateID) agg.Events rows) ∧
    (getenv "ES_PUBLISH_EVENTS" ≠ "1" → db1.t_aepb_publish = db.t_aepb_publish) ∧
    (getenv "ES_PUBLISH_EVENTS" = "1" →
      db1.t_aepb_publish = db.t_aepb_publish ++ agg.Events.map (pubRowOf agg.AggregateID)) := by
  obtain ⟨-, rows, h1, h2, h3, -, -⟩ := StoreEvents_ok h
  refine ⟨⟨rows, h1, h2⟩, ?_, ?_⟩
  · intro hne
    rw [h3]
    simp [NewOraEventStore, EventPublishEnvVar, hne]
  · intro he
    rw [h3]
    simp [NewOraEventStore, EventPublishEnvVar, he]

/-- C10 (witness): the environment answers "1" for "ES_PUBLISH_EVENTS" and the
empty string for every other name; storing one event of a new aggregate on the
empty store adds one ledger row and the matching outbox row. -/
theorem StoreEvents_success_frame_witness :
    (∃ rows : List EventRow,
      [(⟨"a", 1, "TACRE", [1], 5⟩ : EventRow)] = emptyDB.t_aeev_events ++ rows ∧
      List.Forall₂ (RowOf "a") [⟨"a", 1, "TACRE", .bytes [1]⟩] rows) ∧
    [(⟨"a", 1⟩ : PublishRow)] = emptyDB.t_aepb_publish ++
        [(⟨"a", 1, "TACRE", .bytes [1]⟩ : Event)].map (pubRowOf "a") :=
  ⟨(StoreEvents_success_frame (fun name => if name = "ES_PUBLISH_EVENTS" then "1" else "")
      ⟨"a", 1, [⟨"a", 1, "TACRE", .bytes [1]⟩]⟩ emptyDB
      ⟨[⟨"a", 1, "TACRE", [1], 5⟩], [⟨"a", 1⟩], [], 7⟩ (by decide)).1,
   (StoreEvents_success_frame (fun name => if name = "ES_PUBLISH_EVENTS" then "1" else "")
      ⟨"a", 1, [⟨"a", 1, "TACRE", .bytes [1]⟩]⟩ emptyDB
      ⟨[⟨"a", 1, "TACRE", [1], 5⟩], [⟨"a", 1⟩], [], 7⟩ (by decide)).2.2 (by decide)⟩

/-- C3: let `StoreEvents` pass the concurrency guard, open the transaction and
prepare its statements, and let the inserts for the pending events `pre` go
through.  If the ledger insert of the next event `e` fails, `StoreEvents`
returns `ErrEventInsert`; if that insert succeeds and, with publishing enabled,
the outbox insert of `e` fails, it returns `ErrPubInsert`.  In both cases the
ledger and the outbox are exactly as before the call: the rows inserted for
`pre` are gone. -/
theorem StoreEvents_insert_failure_atomic (ora : OraEventStore) (agg : Aggregate)
    (db d0 d1 d2 d3 dk : DB) (mx : Int) (tx : Tx) (pre post : List Event) (e : Event)
    (b : List Nat)
    (hmax : GetMaxVersionForAggregate db agg.AggregateID = ((some mx, none), d0))
    (hguard : mx < agg.Version)
    (hbegin : Begin d0 = (.ok tx, d1))
    (hprep : Prepare d1 = (none, d2))
    (hprepPub : (if ora.publish then Prepare d2 else (none, d2)) = (none, d3))
    (hsplit : agg.Events = pre ++ e :: post)
    (hpre : writeEvents.loop ora.publish agg.AggregateID pre d3 = (none, dk))
    (hbytes : e.Payload = .bytes b) :
    (∀ (msg : String) (dk1 : DB),
      execInsertEvent dk agg.AggregateID e.Version e.TypeCode b = (some msg, dk1) →
      (StoreEvents ora agg db).1 = some Error.ErrEventInsert ∧
        SameTables db (StoreEvents ora agg db).2) ∧
    (∀ (dk1 dk2 : DB) (msg : String),
      execInsertEvent dk agg.AggregateID e.Version e.TypeCode b = (none, dk1) →
      ora.publish = true →
      execInsertPublish dk1 agg.AggregateID e.Version = (some msg, dk2) →
      (StoreEvents ora agg db).1 = some Error.ErrPubInsert ∧
        SameTables db (StoreEvents ora agg db).2) := by
  have hloop : ∀ (err : Error) (d : DB),
      writeEvents.loop ora.publish agg.AggregateID (e :: post) dk = (some err, d) →
      (StoreEvents ora agg db).1 = some err := by
    intro err d hl
    have hfull : writeEvents.loop ora.publish agg.AggregateID agg.Events d3 = (some err, d) := by
      rw [hsplit, writeEvents_loop_append, hpre]
      exact hl
    unfold StoreEvents
    rw [hmax]
    simp only [if_neg (not_not.mpr hguard)]
    unfold writeEvents
    rw [hbegin]
    simp only [hprep, hprepPub, hfull]
  constructor
  · intro msg dk1 hex
    have h1 := hloop .ErrEventInsert dk1 (by simp [writeEvents.loop, hbytes, hex])
    exact ⟨h1, StoreEvents_err h1⟩
  · intro dk1 dk2 msg hex hpub hex2
    have h1 := hloop .ErrPubInsert dk2 (by simp [writeEvents.loop, hbytes, hex, hpub, hex2])
    exact ⟨h1, StoreEvents_err h1⟩

/-- C3 (witness): version 1 of "a" is stored; a batch of versions 2 and 1 has
its first row inserted, its second rejected, and leaves the store as it was. -/
theorem StoreEvents_insert_failure_atomic_witness :
    (StoreEvents ⟨false⟩ clashAgg oneEventDB).1 = some Error.ErrEventInsert ∧
      SameTables oneEventDB (StoreEvents ⟨false⟩ clashAgg oneEventDB).2 :=
  (StoreEvents_insert_failure_atomic ⟨false⟩ clashAgg oneEventDB
    ⟨oneEventDB.t_aeev_events, [], [], 2⟩ ⟨oneEventDB.t_aeev_events, [], [], 3⟩
    ⟨oneEventDB.t_aeev_events, [], [], 4⟩ ⟨oneEventDB.t_aeev_events, [], [], 4⟩
    ⟨oneEventDB.t_aeev_events ++ [⟨"a", 2, "TAFU", [9], 5⟩], [], [], 5⟩
    0 ⟨oneEventDB.t_aeev_events, [], false⟩
    [⟨"a", 2, "TAFU", .bytes [9]⟩] [] ⟨"a", 1, "TACRE", .bytes [8]⟩ [8]
    (by decide) (by decide) rfl (by decide) (by decide) (by decide) (by decide)
    (by decide)).1 ledgerUniqueViolation
    ⟨oneEventDB.t_aeev_events ++ [⟨"a", 2, "TAFU", [9], 5⟩], [], [], 6⟩ (by decide)

/-- C6: for every ledger that respects its uniqueness constraint, in whatever
physical order its rows are, and every aggregate id, when the backend serves the
query `RetrieveEvents` returns a nil error and one event per ledger row of that
aggregate and no other event, strictly ascending by version; with no row for
the id the result is empty. -/
theorem RetrieveEvents_sorted (db : DB) (aggID : String)
    (hquery : db.call.1 = none)
    (hunique : (db.t_aeev_events.map EventRow.key).Nodup) :
    ∃ events : List Event,
      (RetrieveEvents db aggID).1 = (events, none) ∧
      events.Perm ((rowsOf db aggID).map (eventOfRow aggID)) ∧
      (events.map Event.Version).Sorted (· < ·) ∧
      ((∀ r ∈ db.t_aeev_events, r.aggregate_id ≠ aggID) → events = []) := by
  haveI : IsTotal EventRow (fun a b => a.version ≤ b.version) := ⟨fun a b => le_total _ _⟩
  haveI : IsTrans EventRow (fun a b => a.version ≤ b.version) :=
    ⟨fun _ _ _ h1 h2 => le_trans h1 h2⟩
  refine ⟨_, RetrieveEvents_eq db aggID hquery, ?_, ?_, ?_⟩
  · exact (List.perm_insertionSort _ _).map _
  · have hs : (selectEventsByVersion db.t_aeev_events aggID).Sorted
        (fun a b => a.version ≤ b.version) := List.sorted_insertionSort _ _
    have hle : ((selectEventsByVersion db.t_aeev_events aggID).map EventRow.version).Sorted
        (· ≤ ·) := by
      unfold List.Sorted at hs ⊢
      rw [List.pairwise_map]
      exact hs
    have hnd : ((selectEventsByVersion db.t_aeev_events aggID).map EventRow.version).Nodup :=
      ((List.perm_insertionSort _ _).map _).nodup_iff.mpr
        (versions_nodup_of_keys_nodup _ aggID hunique)
    have hmap : ((selectEventsByVersion db.t_aeev_events aggID).map (eventOfRow aggID)).map
        Event.Version = (selectEventsByVersion db.t_aeev_events aggID).map EventRow.version := by
      simp [eventOfRow]
    rw [hmap]
    exact hle.lt_of_le hnd
  · intro hnone
    have hf : db.t_aeev_events.filter (fun r => r.aggregate_id = aggID) = [] := by
      rw [List.filter_eq_nil_iff]
      intro r hr
      simpa using hnone r hr
    simp [selectEventsByVersion, hf]

/-- C6 (witness): a ledger whose rows for "a" were inserted as versions 2, 1
returns them as versions 1, 2. -/
theorem RetrieveEvents_sorted_witness :
    ∃ events : List Event,
      (RetrieveEvents ⟨[⟨"a", 2, "TAFU", [2], 1⟩, ⟨"b", 1, "TACRE", [3], 2⟩,
          ⟨"a", 1, "TACRE", [1], 3⟩], [], [], 3⟩ "a").1 = (events, none) ∧
      events.Perm ((rowsOf ⟨[⟨"a", 2, "TAFU", [2], 1⟩, ⟨"b", 1, "TACRE", [3], 2⟩,
          ⟨"a", 1, "TACRE", [1], 3⟩], [], [], 3⟩ "a").map (eventOfRow "a")) ∧
      (events.map Event.Version).Sorted (· < ·) ∧
      ((∀ r ∈ (⟨[⟨"a", 2, "TAFU", [2], 1⟩, ⟨"b", 1, "TACRE", [3], 2⟩,
          ⟨"a", 1, "TACRE", [1], 3⟩], [], [], 3⟩ : DB).t_aeev_events, r.aggregate_id ≠ "a") →
        events = []) :=
  RetrieveEvents_sorted ⟨[⟨"a", 2, "TAFU", [2], 1⟩, ⟨"b", 1, "TACRE", [3], 2⟩,
    ⟨"a", 1, "TACRE", [1], 3⟩], [], [], 3⟩ "a" (by decide) (by decide)

/-- C5: round trip.  For an aggregate id without stored events and pending
events whose versions ascend strictly (1, 2, ..., n in particular), if
`StoreEvents` succeeds, then `RetrieveEvents` for that id, its query served,
returns a nil error and exactly the pending events in the same order, each with
`Source` set to the aggregate id and with the `Version`, `TypeCode` and
`Payload` that were stored. -/
theorem StoreEvents_RetrieveEvents_roundtrip (ora : OraEventStore) (agg : Aggregate)
    (db db1 : DB)
    (hnone : ∀ r ∈ db.t_aeev_events, r.aggregate_id ≠ agg.AggregateID)
    (hasc : (agg.Events.map Event.Version).Sorted (· < ·))
    (hstore : StoreEvents ora agg db = (none, db1))
    (hquery : db1.call.1 = none) :
    (RetrieveEvents db1 agg.AggregateID).1
      = (agg.Events.map (fun e => { e with Source := agg.AggregateID }), none) := by
  obtain ⟨-, rows, h1, h2, -, -, -⟩ := StoreEvents_ok hstore
  obtain ⟨hv, hid, hev⟩ := rowOf_forall₂ h2
  rw [RetrieveEvents_eq db1 agg.AggregateID hquery, ← hev]
  have hf0 : db.t_aeev_events.filter (fun r => r.aggregate_id = agg.AggregateID) = [] := by
    rw [List.filter_eq_nil_iff]
    intro r hr
    simpa using hnone r hr
  have hf1 : rows.filter (fun r => r.aggregate_id = agg.AggregateID) = rows := by
    rw [List.filter_eq_self]
    intro r hr
    simpa using hid r hr
  have hs : rows.Sorted (fun a b => a.version ≤ b.version) := by
    have hle : (rows.map EventRow.version).Sorted (· ≤ ·) := by
      rw [hv]; exact hasc.le_of_lt
    unfold List.Sorted at hle ⊢
    rw [List.pairwise_map] at hle
    exact hle
  simp only [selectEventsByVersion, h1, List.filter_append, hf0, hf1, List.nil_append,
    hs.insertionSort_eq]

/-- C5 (witness): the aggregate of the acceptance test, created and updated
once, stored on the empty store and retrieved. -/
theorem StoreEvents_RetrieveEvents_roundtrip_witness :
    (RetrieveEvents ⟨[⟨"a", 1, "TACRE", [1], 4⟩, ⟨"a", 2, "TAFU", [2], 5⟩], [], [], 6⟩ "a").1
      = ([(⟨"x", 1, "TACRE", .bytes [1]⟩ : Event), ⟨"y", 2, "TAFU", .bytes [2]⟩].map
          (fun e => { e with Source := "a" }), none) :=
  StoreEvents_RetrieveEvents_roundtrip ⟨false⟩
    ⟨"a", 2, [⟨"x", 1, "TACRE", .bytes [1]⟩, ⟨"y", 2, "TAFU", .bytes [2]⟩]⟩ emptyDB
    ⟨[⟨"a", 1, "TACRE", [1], 4⟩, ⟨"a", 2, "TAFU", [2], 5⟩], [], [], 6⟩
    (by decide) (by decide) (by decide) (by decide)

/-- C8 (counterexample): two requests for the new aggregate "a", both with
version 1, both passing the guard on the empty store.  The first write phase
succeeds; the second is rejected by the uniqueness constraint and returns
`ErrEventInsert`, which is not `ErrConcurrency`. -/
theorem writeEvents_race_not_ErrConcurrency :
    (GetMaxVersionForAggregate emptyDB "a").1 = (some 0, none) ∧
    (0 : Int) < writerA.Version ∧ (0 : Int) < writerB.Version ∧
    (writeEvents ⟨false⟩ writerA emptyDB).1 = none ∧
    (writeEvents ⟨false⟩ writerB (writeEvents ⟨false⟩ writerA emptyDB).2).1
      = some Error.ErrEventInsert ∧
    (writeEvents ⟨false⟩ writerB (writeEvents ⟨false⟩ writerA emptyDB).2).1
      ≠ some Error.ErrConcurrency := by
  decide

/-- C8 (amended): the backend fails only on uniqueness violations, the ledger
has no duplicate key and, with publishing enabled, every outbox key is in the
ledger.  Two requests `a` and `b` for the same aggregate id carry `[]byte`
payloads and share a pending version; the pending versions of `a` are distinct
and not stored yet.  When the write phase of `a` runs and then that of `b`,
the first succeeds, the second returns `ErrEventInsert` and changes nothing,
and the ledger ends without a duplicate key. -/
theorem writeEvents_stale_race (ora : OraEventStore) (a b : Aggregate) (db : DB)
    (hfaults : db.faults = [])
    (hunique : (db.t_aeev_events.map EventRow.key).Nodup)
    (hsub : ora.publish = true → ∀ k ∈ db.t_aepb_publish.map PublishRow.key,
      k ∈ db.t_aeev_events.map EventRow.key)
    (hid : a.AggregateID = b.AggregateID)
    (hshare : ∃ v, v ∈ a.Events.map Event.Version ∧ v ∈ b.Events.map Event.Version)
    (hbytesA : ∀ e ∈ a.Events, ∃ p, e.Payload = .bytes p)
    (hbytesB : ∀ e ∈ b.Events, ∃ p, e.Payload = .bytes p)
    (hnodupA : (a.Events.map Event.Version).Nodup)
    (hfreshA : ∀ e ∈ a.Events, (a.AggregateID, e.Version) ∉ db.t_aeev_events.map EventRow.key) :
    (writeEvents ora a db).1 = none ∧
    (writeEvents ora b (writeEvents ora a db).2).1 = some Error.ErrEventInsert ∧
    SameTables (writeEvents ora a db).2 (writeEvents ora b (writeEvents ora a db).2).2 ∧
    ((writeEvents ora b (writeEvents ora a db).2).2.t_aeev_events.map EventRow.key).Nodup := by
  obtain ⟨d3, hs3, hf3, -, hok⟩ := writeEvents_no_faults ora a db hfaults
  obtain ⟨d4, hl, hf4⟩ := writeEvents_loop_succeeds ora.publish a.AggregateID a.Events d3 hf3
    hbytesA hnodupA (by rw [hs3.1]; exact hfreshA)
    (by
      intro hp e he hmem
      rw [hs3.2] at hmem
      exact hfreshA e he (hsub hp _ hmem))
  have hA := hok d4 hl hf4
  obtain ⟨rows, h1, h2, h3, -, -⟩ := writeEvents_loop_ok _ _ _ _ _ hl
  have hkeys := rowOf_forall₂_keys h2
  rw [hA]
  simp only
  obtain ⟨e3, hsB, hfB, herr, -⟩ :=
    writeEvents_no_faults ora b { d4 with clock := d4.clock + 1 } hf4
  have hev : e3.t_aeev_events = db.t_aeev_events ++ rows := by
    rw [hsB.1]; simp only; rw [h1, hs3.1]
  have hpb : e3.t_aepb_publish = db.t_aepb_publish ++
      (if ora.publish then a.Events.map (pubRowOf a.AggregateID) else []) := by
    rw [hsB.2]; simp only; rw [h3, hs3.2]
  obtain ⟨d5, hclash⟩ := writeEvents_loop_clash ora.publish b.AggregateID b.Events e3 hfB hbytesB
    (by
      obtain ⟨v, hva, hvb⟩ := hshare
      obtain ⟨e, he, rfl⟩ := List.mem_map.mp hvb
      refine ⟨e, he, ?_⟩
      rw [hev, List.map_append, List.mem_append, hkeys, ← hid]
      exact Or.inr (List.mem_map.mpr ⟨_, hva, rfl⟩))
    (by
      intro hp k hk
      rw [hpb, hp] at hk
      simp only [if_true, List.map_append, List.mem_append, List.map_map] at hk
      rw [hev, List.map_append, List.mem_append, hkeys]
      rcases hk with hk | hk
      · exact Or.inl (hsub hp k hk)
      · obtain ⟨e, he, rfl⟩ := List.mem_map.mp hk
        exact Or.inr (List.mem_map.mpr ⟨_, List.mem_map.mpr ⟨e, he, rfl⟩, rfl⟩))
  have hB := herr _ _ hclash
  refine ⟨trivial, hB, writeEvents_err hB, ?_⟩
  rw [(writeEvents_err hB).1]
  simp only
  exact writeEvents_loop_nodup hl (by rw [hs3.1]; exact hunique)

/-- C8 (witness): the two writers of version 1 of the new aggregate "a" on the
empty store, with publishing enabled. -/
theorem writeEvents_stale_race_witness :
    (writeEvents ⟨true⟩ writerA emptyDB).1 = none ∧
    (writeEvents ⟨true⟩ writerB (writeEvents ⟨true⟩ writerA emptyDB).2).1
      = some Error.ErrEventInsert ∧
    SameTables (writeEvents ⟨true⟩ writerA emptyDB).2
      (writeEvents ⟨true⟩ writerB (writeEvents ⟨true⟩ writerA emptyDB).2).2 ∧
    ((writeEvents ⟨true⟩ writerB (writeEvents ⟨true⟩ writerA emptyDB).2).2.t_aeev_events.map
      EventRow.key).Nodup :=
  writeEvents_stale_race ⟨true⟩ writerA writerB emptyDB (by decide) (by decide) (by decide)
    (by decide) ⟨1, by decide, by decide⟩ (by simp [writerA]) (by simp [writerB]) (by decide)
    (by decide)

/-- C9 (counterexample): version 1 of "a" is stored.  A request that passes the
guard and whose second pending event has a payload that is not a `[]byte` gets
`ErrEventInsert` from the insert attempted for its first event, not
`ErrPayloadType`. -/
theorem StoreEvents_bad_payload_not_ErrPayloadType :
    (∃ e ∈ badSecondAgg.Events, e.Payload = .other "string") ∧
    (GetMaxVersionForAggregate oneEventDB "a").1 = (some 0, none) ∧
    (0 : Int) < badSecondAgg.Version ∧
    (StoreEvents ⟨false⟩ badSecondAgg oneEventDB).1 = some Error.ErrEventInsert ∧
    (StoreEvents ⟨false⟩ badSecondAgg oneEventDB).1 ≠ some Error.ErrPayloadType := by
  decide

/-- C9 (amended): let `StoreEvents` pass the concurrency guard, open the
transaction and prepare its statements, and let `e` be the first pending event
whose payload is not a `[]byte`.  The ledger inserts (and, with publishing
enabled, the outbox inserts) of the events `pre` that precede `e` are executed
inside the transaction: if they all succeed, `StoreEvents` returns
`ErrPayloadType` and the database it leaves is the one those inserts led to,
backend calls consumed and clock advanced, with the ledger and the outbox put
back as they were before the call. -/
theorem StoreEvents_payload_type (ora : OraEventStore) (agg : Aggregate)
    (db d0 d1 d2 d3 dk : DB) (mx : Int) (tx : Tx) (pre post : List Event) (e : Event)
    (typeName : String)
    (hmax : GetMaxVersionForAggregate db agg.AggregateID = ((some mx, none), d0))
    (hguard : mx < agg.Version)
    (hbegin : Begin d0 = (.ok tx, d1))
    (hprep : Prepare d1 = (none, d2))
    (hprepPub : (if ora.publish then Prepare d2 else (none, d2)) = (none, d3))
    (hsplit : agg.Events = pre ++ e :: post)
    (hpre : writeEvents.loop ora.publish agg.AggregateID pre d3 = (none, dk))
    (hother : e.Payload = .other typeName) :
    StoreEvents ora agg db = (some Error.ErrPayloadType,
      { dk with t_aeev_events := db.t_aeev_events, t_aepb_publish := db.t_aepb_publish }) ∧
    (StoreEvents ora agg db).2.clock = dk.clock ∧
    (StoreEvents ora agg db).2.faults = dk.faults ∧
    SameTables db (StoreEvents ora agg db).2 ∧
    (∃ rows : List EventRow, dk.t_aeev_events = db.t_aeev_events ++ rows ∧
      List.Forall₂ (RowOf agg.AggregateID) pre rows) ∧
    dk.t_aepb_publish = db.t_aepb_publish ++
      (if ora.publish then pre.map (pubRowOf agg.AggregateID) else []) := by
  have hfull : writeEvents.loop ora.publish agg.AggregateID agg.Events d3
      = (some .ErrPayloadType, dk) := by
    rw [hsplit, writeEvents_loop_append, hpre]
    simp [writeEvents.loop, hother]
  have hs0 := GetMaxVersionForAggregate_sameTables db agg.AggregateID
  rw [hmax] at hs0
  obtain ⟨hcall, htx⟩ := Begin_ok hbegin
  have hs1 : SameTables d0 d1 := by
    have := sameTables_call d0; rwa [hcall] at this
  have hs2 : SameTables d1 d2 := by
    have := sameTables_call d1; unfold Prepare at hprep; rwa [hprep] at this
  have hs3 : SameTables d2 d3 := by
    by_cases hp : ora.publish = true
    · rw [if_pos hp] at hprepPub
      have := sameTables_call d2; unfold Prepare at hprepPub; rwa [hprepPub] at this
    · rw [if_neg hp] at hprepPub
      simp only [Prod.mk.injEq, true_and] at hprepPub
      subst hprepPub; exact sameTables_refl _
  have hs03 : SameTables db d3 :=
    sameTables_trans (sameTables_trans (sameTables_trans hs0 hs1) hs2) hs3
  have hev0 : d0.t_aeev_events = db.t_aeev_events := hs0.1
  have hpb0 : d0.t_aepb_publish = db.t_aepb_publish := hs0.2
  have hres : StoreEvents ora agg db = (some Error.ErrPayloadType,
      { dk with t_aeev_events := db.t_aeev_events, t_aepb_publish := db.t_aepb_publish }) := by
    unfold StoreEvents
    rw [hmax]
    simp only [if_neg (not_not.mpr hguard)]
    unfold writeEvents
    rw [hbegin]
    simp only [hprep, hprepPub, hfull]
    rw [htx]
    simp only [Tx.Rollback, Bool.false_eq_true, if_false, hev0, hpb0]
  obtain ⟨rows, h1, h2, h3, -, -⟩ := writeEvents_loop_ok _ _ _ _ _ hpre
  refine ⟨hres, by rw [hres], by rw [hres], by rw [hres]; exact ⟨rfl, rfl⟩,
    ⟨rows, by rw [h1, hs03.1], h2⟩, by rw [h3, hs03.2]⟩

/-- C9 (witness): on the empty store the insert of version 1 is executed (the
clock stands at 4, one call after the two of `Begin` and `Prepare` and the one
of the guard), the payload of version 2 is rejected, and the store is left
empty. -/
theorem StoreEvents_payload_type_witness :
    StoreEvents ⟨false⟩ badSecondAgg emptyDB = (some Error.ErrPayloadType, ⟨[], [], [], 4⟩) ∧
    (StoreEvents ⟨false⟩ badSecondAgg emptyDB).2.clock = 4 ∧
    (StoreEvents ⟨false⟩ badSecondAgg emptyDB).2.faults = [] ∧
    SameTables emptyDB (StoreEvents ⟨false⟩ badSecondAgg emptyDB).2 ∧
    (∃ rows : List EventRow,
      [(⟨"a", 1, "TACRE", [1], 4⟩ : EventRow)] = emptyDB.t_aeev_events ++ rows ∧
      List.Forall₂ (RowOf "a") [⟨"a", 1, "TACRE", .bytes [1]⟩] rows) ∧
    ([] : List PublishRow) = emptyDB.t_aepb_publish ++
      (if (⟨false⟩ : OraEventStore).publish then
        [(⟨"a", 1, "TACRE", .bytes [1]⟩ : Event)].map (pubRowOf "a") else []) :=
  StoreEvents_payload_type ⟨false⟩ badSecondAgg emptyDB
    ⟨[], [], [], 1⟩ ⟨[], [], [], 2⟩ ⟨[], [], [], 3⟩ ⟨[], [], [], 3⟩
    ⟨[⟨"a", 1, "TACRE", [1], 4⟩], [], [], 4⟩
    0 ⟨[], [], false⟩ [⟨"a", 1, "TACRE", .bytes [1]⟩] [] ⟨"a", 2, "TAFU", .other "string"⟩
    "string" (by decide) (by decide) rfl (by decide) (by decide) (by decide) (by decide)
    (by decide)

/-- C7: republish idempotence.  When the backend fails only on uniqueness
violations and the outbox respects its uniqueness constraint, a first
`RepublishAllEvents` returns nil, a second one right after it returns nil and
inserts nothing (the outbox and the ledger are those left by the first run),
and after either run every (aggregate id, version) key of the ledger is in the
outbox, whose keys are pairwise distinct: each is there exactly once. -/
theorem RepublishAllEvents_idempotent (db : DB)
    (hfaults : db.faults = [])
    (hunique : (db.t_aepb_publish.map PublishRow.key).Nodup) :
    (RepublishAllEvents db).1 = none ∧
    (RepublishAllEvents (RepublishAllEvents db).2).1 = none ∧
    (RepublishAllEvents (RepublishAllEvents db).2).2.t_aepb_publish
      = (RepublishAllEvents db).2.t_aepb_publish ∧
    (RepublishAllEvents (RepublishAllEvents db).2).2.t_aeev_events = db.t_aeev_events ∧
    (RepublishAllEvents db).2.t_aeev_events = db.t_aeev_events ∧
    ((RepublishAllEvents db).2.t_aepb_publish.map PublishRow.key).Nodup ∧
    (∀ k ∈ db.t_aeev_events.map EventRow.key,
      k ∈ (RepublishAllEvents db).2.t_aepb_publish.map PublishRow.key) ∧
    ((RepublishAllEvents (RepublishAllEvents db).2).2.t_aepb_publish.map PublishRow.key).Nodup ∧
    (∀ k ∈ db.t_aeev_events.map EventRow.key,
      k ∈ (RepublishAllEvents (RepublishAllEvents db).2).2.t_aepb_publish.map
        PublishRow.key) := by
  obtain ⟨d, h1, h2, h3, h4, -, h6, -⟩ := RepublishAllEvents_no_faults db hfaults hunique
  obtain ⟨d', g1, -, g3, -, -, -, g7⟩ := RepublishAllEvents_no_faults d h2 h4
  have hsame : d'.t_aepb_publish = d.t_aepb_publish := g7 (by rw [h3]; exact h6)
  rw [h1]
  simp only
  rw [g1]
  simp only
  refine ⟨trivial, trivial, hsame, by rw [g3, h3], h3, h4, h6, ?_, ?_⟩
  · rw [hsame]; exact h4
  · rw [hsame]; exact h6

/-- C7 (witness): a ledger of three events whose outbox holds only the second
one. -/
theorem RepublishAllEvents_idempotent_witness :
    (RepublishAllEvents ⟨[⟨"a", 1, "TACRE", [1], 1⟩, ⟨"b", 1, "TACRE", [3], 2⟩,
      ⟨"a", 2, "TAFU", [2], 3⟩], [⟨"b", 1⟩], [], 3⟩).2.t_aepb_publish
        = [⟨"b", 1⟩, ⟨"a", 1⟩, ⟨"a", 2⟩] ∧
    (RepublishAllEvents (RepublishAllEvents ⟨[⟨"a", 1, "TACRE", [1], 1⟩,
      ⟨"b", 1, "TACRE", [3], 2⟩, ⟨"a", 2, "TAFU", [2], 3⟩], [⟨"b", 1⟩], [], 3⟩).2).2.t_aepb_publish
        = (RepublishAllEvents ⟨[⟨"a", 1, "TACRE", [1], 1⟩, ⟨"b", 1, "TACRE", [3], 2⟩,
            ⟨"a", 2, "TAFU", [2], 3⟩], [⟨"b", 1⟩], [], 3⟩).2.t_aepb_publish :=
  ⟨by decide,
   (RepublishAllEvents_idempotent ⟨[⟨"a", 1, "TACRE", [1], 1⟩, ⟨"b", 1, "TACRE", [3], 2⟩,
      ⟨"a", 2, "TAFU", [2], 3⟩], [⟨"b", 1⟩], [], 3⟩ (by decide) (by decide)).2.2.1⟩

/-- C4 (counterexample): on the empty ledger a request whose only pending event
carries version 5 is accepted; the versions stored for "a" are then [5], which
is not 1..N for any N. -/
theorem StoreEvents_accepts_gap :
    emptyDB.t_aeev_events = [] ∧
    (StoreEvents ⟨false⟩ gapAgg emptyDB).1 = none ∧
    storedVersions (storeAll ⟨false⟩ [gapAgg] emptyDB) "a" = [5] ∧
    ¬ Contiguous (storeAll ⟨false⟩ [gapAgg] emptyDB) "a" := by
  refine ⟨rfl, by decide, by decide, ?_⟩
  rintro ⟨n, hn⟩
  have h5 : storedVersions (storeAll ⟨false⟩ [gapAgg] emptyDB) "a" = [5] := by decide
  rw [h5] at hn
  have hlen := congrArg List.length hn
  simp only [firstVersions, List.length_map, List.length_range', List.length_singleton] at hlen
  subst hlen
  revert hn
  decide

/-- C4 (amended): starting from an empty ledger, after every sequence of
`StoreEvents` calls, successful or not, no two ledger rows share an (aggregate
id, version) key; and when every request of the sequence numbers its pending
events consecutively, continuing a prior version that is at most the highest
version stored for its id at the time of its call, the versions stored for any
one aggregate id are exactly 1..N for some N. -/
theorem storeAll_versions (ora : OraEventStore) (reqs : List Aggregate) (db : DB)
    (hempty : db.t_aeev_events = []) :
    ((storeAll ora reqs db).t_aeev_events.map EventRow.key).Nodup ∧
    (WellNumberedRun ora reqs db → ∀ aggId, Contiguous (storeAll ora reqs db) aggId) := by
  constructor
  · exact storeAll_nodup ora reqs db (by rw [hempty]; exact List.nodup_nil)
  · intro hrun
    refine storeAll_contiguous ora reqs db ?_ hrun
    intro aggId
    exact ⟨0, by simp [storedVersions, hempty, firstVersions]⟩

/-- C4 (witness): the two writers of version 1 of "a" followed by a request
built on a stale read of version 1, on the empty store: the second writer is
rejected and the ledger holds versions 1 and 2. -/
theorem storeAll_versions_witness :
    ((storeAll ⟨true⟩ [writerA, writerB, staleAgg] emptyDB).t_aeev_events.map
      EventRow.key).Nodup ∧
    ∀ aggId, Contiguous (storeAll ⟨true⟩ [writerA, writerB, staleAgg] emptyDB) aggId :=
  ⟨(storeAll_versions ⟨true⟩ [writerA, writerB, staleAgg] emptyDB rfl).1,
   (storeAll_versions ⟨true⟩ [writerA, writerB, staleAgg] emptyDB rfl).2
    ⟨⟨0, by decide, by decide⟩, ⟨0, by decide, by decide⟩, ⟨1, by decide, by decide⟩, trivial⟩⟩

end oraeventstore
